import Mathlib

/-!
Verification development for the `txoutproof-graph` repository: a shallow
embedding of its Bitcoin partial-Merkle-tree decoder and reconstructor,
together with theorems about the embedded code.

Bytes are modelled as `Nat` (values `< 256` on real inputs), byte strings as
`List Nat`, and Go slices of nodes as `List MerkleNode` indexed by position
(the Go code only ever appends to `m.binTree`, so list indices are stable
stand-ins for the Go pointers).
-/

namespace TxOutProof

/-! ## SHA-256 (the algorithm implemented by Go `crypto/sha256`, FIPS 180-4) -/

def w32 (n : Nat) : Nat := n % 4294967296

def add32 (a b : Nat) : Nat := w32 (a + b)

def rotr32 (n x : Nat) : Nat := w32 ((x >>> n) ||| (x <<< (32 - n)))

def bigSigma0 (x : Nat) : Nat := (rotr32 2 x) ^^^ (rotr32 13 x) ^^^ (rotr32 22 x)

def bigSigma1 (x : Nat) : Nat := (rotr32 6 x) ^^^ (rotr32 11 x) ^^^ (rotr32 25 x)

def smallSigma0 (x : Nat) : Nat := (rotr32 7 x) ^^^ (rotr32 18 x) ^^^ (x >>> 3)

def smallSigma1 (x : Nat) : Nat := (rotr32 17 x) ^^^ (rotr32 19 x) ^^^ (x >>> 10)

def chFn (x y z : Nat) : Nat := (x &&& y) ^^^ ((x ^^^ 4294967295) &&& z)

def majFn (x y z : Nat) : Nat := (x &&& y) ^^^ (x &&& z) ^^^ (y &&& z)

def shaK : List Nat :=
  [1116352408, 1899447441, 3049323471, 3921009573, 961987163, 1508970993,
   2453635748, 2870763221, 3624381080, 310598401, 607225278, 1426881987,
   1925078388, 2162078206, 2614888103, 3248222580, 3835390401, 4022224774,
   264347078, 604807628, 770255983, 1249150122, 1555081692, 1996064986,
   2554220882, 2821834349, 2952996808, 3210313671, 3336571891, 3584528711,
   113926993, 338241895, 666307205, 773529912, 1294757372, 1396182291,
   1695183700, 1986661051, 2177026350, 2456956037, 2730485921, 2820302411,
   3259730800, 3345764771, 3516065817, 3600352804, 4094571909, 275423344,
   430227734, 506948616, 659060556, 883997877, 958139571, 1322822218,
   1537002063, 1747873779, 1955562222, 2024104815, 2227730452, 2361852424,
   2428436474, 2756734187, 3204031479, 3329325298]

def shaH0 : List Nat :=
  [1779033703, 3144134277, 1013904242, 2773480762,
   1359893119, 2600822924, 528734635, 1541459225]

/-- Big-endian byte encoding of `n`, `k` bytes wide. -/
def beBytes : Nat → Nat → List Nat
  | 0, _ => []
  | k + 1, n => beBytes k (n / 256) ++ [n % 256]

/-- SHA-256 padding: append `0x80`, zero bytes, and the 64-bit big-endian bit length. -/
def shaPad (msg : List Nat) : List Nat :=
  let L := msg.length
  let zeros := (64 - ((L + 9) % 64)) % 64
  msg ++ [0x80] ++ List.replicate zeros 0 ++ beBytes 8 (8 * L)

/-- Group a byte list into big-endian 32-bit words (four bytes per word). -/
def toWordsBE : List Nat → List Nat
  | b0 :: b1 :: b2 :: b3 :: rest =>
      (((b0 * 256 + b1) * 256 + b2) * 256 + b3) :: toWordsBE rest
  | _ => []

/-- Extend the 16 message words to 64 by pushing `fuel` schedule words. -/
def extendLoop : Nat → Array Nat → Array Nat
  | 0, w => w
  | k + 1, w =>
      let t := w.size
      let nw := add32 (add32 (smallSigma1 (w.getD (t - 2) 0)) (w.getD (t - 7) 0))
                      (add32 (smallSigma0 (w.getD (t - 15) 0)) (w.getD (t - 16) 0))
      extendLoop k (w.push nw)

def roundStep : (Nat × Nat × Nat × Nat × Nat × Nat × Nat × Nat) → Nat × Nat →
    (Nat × Nat × Nat × Nat × Nat × Nat × Nat × Nat)
  | (a, b, c, d, e, f, g, h), (k, w) =>
      let t1 := add32 (add32 (add32 h (bigSigma1 e)) (add32 (chFn e f g) k)) w
      let t2 := add32 (bigSigma0 a) (majFn a b c)
      (add32 t1 t2, a, b, c, add32 d t1, e, f, g)

/-- One SHA-256 compression of a 64-byte block into the 8-word chaining state. -/
def compressBlock (hv : List Nat) (block : List Nat) : List Nat :=
  let ws := (extendLoop 48 (Array.mk (toWordsBE block))).toList
  match hv with
  | [a, b, c, d, e, f, g, h] =>
      match (shaK.zip ws).foldl roundStep (a, b, c, d, e, f, g, h) with
      | (a', b', c', d', e', f', g', h') =>
          [add32 a a', add32 b b', add32 c c', add32 d d',
           add32 e e', add32 f f', add32 g g', add32 h h']
  | _ => hv

/-- Split into 64-byte chunks; the fuel argument keeps the recursion structural. -/
def chunks64 : Nat → List Nat → List (List Nat)
  | 0, _ => []
  | _, [] => []
  | fuel + 1, l => l.take 64 :: chunks64 fuel (l.drop 64)

/-- SHA-256 of a byte string, as computed by Go `sha256.Sum256`. -/
def sha256 (msg : List Nat) : List Nat :=
  let padded := shaPad msg
  let blocks := chunks64 padded.length padded
  ((blocks.foldl compressBlock shaH0).map (beBytes 4)).flatten

/-- Go `doubleSha256`: `sha256.Sum256` applied twice. -/
def doubleSha256 (data : List Nat) : List Nat := sha256 (sha256 data)

/-! ## Proof decoder (`readVarInt`, `decodeTxOutProofData` from `main.go`) -/

/-- Little-endian read of `n` bytes from the front of a stream; `none` models a
short read (Go `binary.Read` / `io.EOF`). Returns the value and the rest. -/
def readLE : Nat → List Nat → Option (Nat × List Nat)
  | 0, bs => some (0, bs)
  | _ + 1, [] => none
  | n + 1, b :: bs => (readLE n bs).map (fun vr => (b + 256 * vr.1, vr.2))

/-- Go `readVarInt`: a Bitcoin CompactSize integer read from the front of the
stream. One discriminant byte; `0xfd`, `0xfe`, `0xff` select a 2-, 4- or 8-byte
little-endian extension, any other byte is the value itself. -/
def readVarInt (bs : List Nat) : Option (Nat × List Nat) :=
  match bs with
  | [] => none
  | d :: rest =>
    if d = 0xfd then readLE 2 rest
    else if d = 0xfe then readLE 4 rest
    else if d = 0xff then readLE 8 rest
    else some (d, rest)

/-- Go `io.ReadFull` into an `n`-byte buffer: take exactly `n` bytes or fail. -/
def readChunk (n : Nat) (bs : List Nat) : Option (List Nat × List Nat) :=
  if n ≤ bs.length then some (bs.take n, bs.drop n) else none

/-- The hash-reading loop of `decodeTxOutProofData`: `n` successive 32-byte hashes. -/
def readHashes : Nat → List Nat → Option (List (List Nat) × List Nat)
  | 0, bs => some ([], bs)
  | n + 1, bs =>
    (readChunk 32 bs).bind fun hr =>
      (readHashes n hr.2).map fun tr => (hr.1 :: tr.1, tr.2)

/-- Unpack one flag byte LSB-first, as the Go loop `(b >> i) & 1 == 1` does. -/
def byteToBits (b : Nat) : List Bool :=
  (List.range 8).map fun i => ((b >>> i) &&& 1) == 1

/-- Unpack a list of flag bytes into `8·F` flag bits (the inner double loop of
`decodeTxOutProofData`). -/
def unpackVBits (bytes : List Nat) : List Bool :=
  (bytes.map byteToBits).flatten

/-- Two's-complement decode of a 32-bit value (Go `int32` read). -/
def toInt32 (n : Nat) : Int :=
  if n < 2147483648 then (n : Int) else (n : Int) - 4294967296

/-- Value of a little-endian byte list. -/
def leVal : List Nat → Nat
  | [] => 0
  | b :: bs => b + 256 * leVal bs

structure BlockHeader where
  version : Int
  prevBlockHash : List Nat
  merkleRoot : List Nat
  timestamp : Nat
  bits : Nat
  nonce : Nat
  deriving DecidableEq

structure MerkleProofData where
  totalTransactions : Nat
  hashNum : Nat
  hashes : List (List Nat)
  vbitsNum : Nat
  vbits : List Bool
  deriving DecidableEq

inductive DecErr
  | headerTooShort
  | emptyProofBody
  | truncatedTotalTransactions
  | truncatedHashNum
  | truncatedHash
  | truncatedVBitsNum
  | truncatedVBits
  deriving DecidableEq

/-- The fixed 80-byte block-header decode (`binary.Read` of the `BlockHeader`
struct, little-endian field by field). -/
def parseHeader (hdr : List Nat) : BlockHeader :=
  { version := toInt32 (leVal (hdr.take 4))
    prevBlockHash := (hdr.drop 4).take 32
    merkleRoot := (hdr.drop 36).take 32
    timestamp := leVal ((hdr.drop 68).take 4)
    bits := leVal ((hdr.drop 72).take 4)
    nonce := leVal ((hdr.drop 76).take 4) }

/-- Go `decodeTxOutProofData`: header check and decode, then total-transaction
count, hash count, hashes, flag count and flag bytes, each read from the front
of the remaining stream. The decoder never checks that the buffer is fully
consumed. -/
def decodeTxOutProofData (decodedBytes : List Nat) :
    Except DecErr (BlockHeader × MerkleProofData) :=
  if decodedBytes.length < 80 then .error .headerTooShort
  else
    if decodedBytes.drop 80 = [] then .error .emptyProofBody
    else
      match readLE 4 (decodedBytes.drop 80) with
      | none => .error .truncatedTotalTransactions
      | some (totalTx, r1) =>
        match readVarInt r1 with
        | none => .error .truncatedHashNum
        | some (hashNum, r2) =>
          match readHashes hashNum r2 with
          | none => .error .truncatedHash
          | some (hashes, r3) =>
            match readVarInt r3 with
            | none => .error .truncatedVBitsNum
            | some (vbitsNum, r4) =>
              match readChunk vbitsNum r4 with
              | none => .error .truncatedVBits
              | some (vbytes, _) =>
                .ok (parseHeader (decodedBytes.take 80),
                     { totalTransactions := totalTx
                       hashNum := hashNum
                       hashes := hashes
                       vbitsNum := vbitsNum
                       vbits := unpackVBits vbytes })

/-! ## Partial-Merkle-tree reconstructor (`CreateMerkleBranch` from `merkle_branch.go`)

The Go loop mutates a slice `m.binTree` of pointer-linked nodes; here the slice
is a `List MerkleNode` and pointers are indices (`Option Nat`, `none` = nil).
One `step` is one iteration of the `for` loop; `runLoop` iterates it on fuel.
Go runtime panics (nil-pointer dereference, index out of range) are explicit
outcomes, distinct from the two `error` returns of the function. -/

structure MerkleNode where
  parent : Option Nat
  left : Option Nat
  right : Option Nat
  hash : Option (List Nat)
  deriving DecidableEq

structure MBState where
  binTree : List MerkleNode
  target : Option Nat
  current : Option Nat
  vbitsIndex : Nat
  hashesIndex : Nat
  depth : Int
  deriving DecidableEq

inductive BranchErr
  /-- Go: "all hashes is parsed, but tree construction is not finished". -/
  | incompleteProof
  /-- Go: "vBits is too short, expected at least %d bits, got %d". -/
  | flagExhausted
  deriving DecidableEq

inductive GoPanic
  | nilDeref
  | indexOutOfRange
  deriving DecidableEq

inductive StepRes
  | next (st : MBState)
  | ok (root : List Nat) (st : MBState)
  | fail (e : BranchErr) (st : MBState)
  | stuck (p : GoPanic)
  deriving DecidableEq

/-- Replace node `i` by `f` applied to it (Go mutates the pointed-to node). -/
def updateNode (ns : List MerkleNode) (i : Nat) (f : MerkleNode → MerkleNode) :
    List MerkleNode :=
  match ns[i]? with
  | none => ns
  | some n => ns.set i (f n)

/-- The hash field of node `i`. -/
def hashAt (st : MBState) (i : Nat) : Option (List Nat) :=
  st.binTree[i]?.bind MerkleNode.hash

/-- Write hash `r` into node `c` (the success branch's `current.Hash = root`). -/
def setHashAt (st : MBState) (c : Nat) (r : List Nat) : MBState :=
  { st with binTree := updateNode st.binTree c (fun n => { n with hash := some r }) }

/-- Go `append(x, y...)` treats a nil slice as empty. -/
def hashOrNil : Option (List Nat) → List Nat
  | none => []
  | some h => h

/-- The "fold upward" branch: both children exist, so compute this node's hash
from the children (if not already set) and ascend to the parent. -/
def foldStep (st : MBState) (c l r : Nat) (cn : MerkleNode) : MBState :=
  let ns1 :=
    if cn.hash = none then
      updateNode st.binTree c fun n =>
        { n with hash := some (doubleSha256 (hashOrNil (hashAt st l) ++ hashOrNil (hashAt st r))) }
    else st.binTree
  { st with binTree := ns1, current := cn.parent, depth := st.depth - 1 }

/-- The trailing `vbitsIndex++` bounds check of the Go loop: it fires as soon as
the incremented index reaches `len(vbits)`, even when no further bit is needed. -/
def vbitsGuard (vb : List Bool) (st' : MBState) : StepRes :=
  if st'.vbitsIndex ≥ vb.length then .fail .flagExhausted st' else .next st'

/-- The leaf branch of an iteration: write the next hash into the current node,
possibly record it as the matched target, and ascend to the parent. -/
def leafAssign (st : MBState) (c2 : Nat) (b : Bool) (ht : Int)
    (hsh : List Nat) : MBState :=
  let ns3 := updateNode st.binTree c2 fun n => { n with hash := some hsh }
  { binTree := ns3
    target := if b && st.depth == ht then some c2 else st.target
    current := ns3[c2]?.bind MerkleNode.parent
    vbitsIndex := st.vbitsIndex + 1
    hashesIndex := st.hashesIndex + 1
    depth := st.depth - 1 }

/-- The descend branch of an iteration: create a left child and move into it. -/
def leftCreate (st : MBState) (c2 : Nat) : MBState :=
  { st with
      binTree := (updateNode st.binTree c2
          (fun n => { n with left := some st.binTree.length })) ++
        [⟨some c2, none, none, none⟩],
      current := some st.binTree.length,
      vbitsIndex := st.vbitsIndex + 1,
      depth := st.depth + 1 }

/-- The right-child creation that precedes the flag consumption when the
current node has a left child but no right child yet. -/
def rightCreate (st : MBState) (c : Nat) : MBState :=
  { st with
      binTree := (updateNode st.binTree c
          (fun n => { n with right := some st.binTree.length })) ++
        [⟨some c, none, none, none⟩],
      current := some st.binTree.length,
      depth := st.depth + 1 }

/-- The flag-consuming tail of a loop iteration, entered with `c2` as the current
node (after a possible right-child creation) and `st.depth` already updated.
Reads `vbits[vbitsIndex]` with no preceding bounds check, exactly as the Go does. -/
def flagStep (vb : List Bool) (hs : List (List Nat)) (ht : Int)
    (st : MBState) (c2 : Nat) : StepRes :=
  match vb[st.vbitsIndex]? with
  | none => .stuck .indexOutOfRange
  | some b =>
    if !b || st.depth == ht then
      match hs[st.hashesIndex]? with
      | none => .stuck .indexOutOfRange
      | some hsh => vbitsGuard vb (leafAssign st c2 b ht hsh)
    else vbitsGuard vb (leftCreate st c2)

/-- One iteration of the `for` loop of `CreateMerkleBranch`. -/
def step (vb : List Bool) (hs : List (List Nat)) (ht : Int) (st : MBState) : StepRes :=
  if st.hashesIndex = hs.length then
    match st.current with
    | none => .stuck .nilDeref
    | some c =>
      match st.binTree[c]? with
      | none => .stuck .nilDeref
      | some cn =>
        match cn.left, cn.right with
        | some l, some r =>
          match hashAt st l, hashAt st r with
          | some lh, some rh =>
            let root := doubleSha256 (lh ++ rh)
            .ok root (setHashAt st c root)
          | _, _ => .fail .incompleteProof st
        | _, _ => .fail .incompleteProof st
  else
    match st.current with
    | none => .stuck .nilDeref
    | some c =>
      match st.binTree[c]? with
      | none => .stuck .nilDeref
      | some cn =>
        match cn.left, cn.right with
        | some l, some r => .next (foldStep st c l r cn)
        | some _, none =>
          flagStep vb hs ht (rightCreate st c) st.binTree.length
        | none, _ => flagStep vb hs ht st c

inductive RunRes
  | out (st : MBState)
  | ok (root : List Nat) (st : MBState)
  | fail (e : BranchErr) (st : MBState)
  | stuck (p : GoPanic)
  deriving DecidableEq

/-- Iterate the loop body on fuel. -/
def runLoop (vb : List Bool) (hs : List (List Nat)) (ht : Int) :
    Nat → MBState → RunRes
  | 0, st => .out st
  | fuel + 1, st =>
    match step vb hs ht st with
    | .next st' => runLoop vb hs ht fuel st'
    | .ok r st' => .ok r st'
    | .fail e st' => .fail e st'
    | .stuck p => .stuck p

/-- The initial state of `CreateMerkleBranch`: a single root node, everything
else zeroed. -/
def initState : MBState :=
  { binTree := [⟨none, none, none, none⟩], target := none, current := some 0,
    vbitsIndex := 0, hashesIndex := 0, depth := 0 }

/-- Go `CreateMerkleBranch`, as the fuelled loop from the initial state. -/
def createMerkleBranch (vb : List Bool) (hs : List (List Nat)) (ht : Int)
    (fuel : Nat) : RunRes :=
  runLoop vb hs ht fuel initState

/-- The loop-top states visited from a state: `n` successful `.next` steps. -/
def stepsN (vb : List Bool) (hs : List (List Nat)) (ht : Int) :
    Nat → MBState → Option MBState
  | 0, st => some st
  | n + 1, st =>
    match step vb hs ht st with
    | .next st' => stepsN vb hs ht n st'
    | _ => none

/-- The tree-height computation of `buildMerkleTreeDot`: the loop
`for (1 << height) < totalTx { height++ }`, fuelled by `totalTx`. -/
def heightAux : Nat → Nat → Nat → Nat
  | 0, h, _ => h
  | fuel + 1, h, totalTx => if (1 <<< h) < totalTx then heightAux fuel (h + 1) totalTx else h

def heightFor (totalTx : Nat) : Nat := heightAux totalTx 0 totalTx

/-- Whether a run ended in the success branch. -/
def isOkRes : RunRes → Bool
  | .ok _ _ => true
  | _ => false

/-- The final state of a successful run. -/
def finalState : RunRes → Option MBState
  | .ok _ st => some st
  | _ => none

/-- The root returned by a successful run. -/
def finalRoot : RunRes → Option (List Nat)
  | .ok r _ => some r
  | _ => none

/-- The `target` field of the state carried by a step result (`none` for a panic). -/
def resTarget : StepRes → Option (Option Nat)
  | .next st => some st.target
  | .ok _ st => some st.target
  | .fail _ st => some st.target
  | .stuck _ => none

/-- The error of a failing run. -/
def resErr : RunRes → Option BranchErr
  | .fail e _ => some e
  | _ => none

/-! ## Structural invariants of the reconstruction walk -/

/-- The contribution of one node to the leaf-hash sequence: its hash if it is
childless, nothing otherwise. -/
def leafEntry (n : MerkleNode) : Option (List Nat) :=
  if n.left.isNone && n.right.isNone then n.hash else none

/-- The hashes of the childless nodes, in creation (= finalization) order. -/
def leafHashes (ns : List MerkleNode) : List (List Nat) :=
  ns.filterMap leafEntry

/-- The number of childless nodes. -/
def countLeaves (ns : List MerkleNode) : Nat :=
  (ns.filter fun n => n.left.isNone && n.right.isNone).length

/-- Whether the current node is freshly created: childless and hashless, its
flag bit not yet consumed. -/
def isFresh (st : MBState) : Bool :=
  match st.current with
  | none => false
  | some c =>
    match st.binTree[c]? with
    | none => false
    | some n => n.left.isNone && n.right.isNone && n.hash.isNone

/-- The chain of parent links starting at node `c` (with fuel). -/
def ancestors (ns : List MerkleNode) : Nat → Nat → List Nat
  | 0, c => [c]
  | fuel + 1, c =>
    c :: (match ns[c]?.bind MerkleNode.parent with
          | none => []
          | some p => ancestors ns fuel p)

/-- The current node together with its ancestors — the only possibly
unfinished nodes of the walk. -/
def pathOf (st : MBState) : List Nat :=
  match st.current with
  | none => []
  | some c => ancestors st.binTree c c

/-- Well-formedness of a loop-top state of the walk, relative to the hash
list `hs`; these invariants are established at the initial state and preserved
by every `.next` step. -/
structure Wf (hs : List (List Nat)) (st : MBState) : Prop where
  cur_lt : ∀ c : Nat, st.current = some c → c < st.binTree.length
  parent_lt : ∀ (i : Nat) (n : MerkleNode) (p : Nat),
    st.binTree[i]? = some n → n.parent = some p → p < i
  left_range : ∀ (i : Nat) (n : MerkleNode) (l : Nat),
    st.binTree[i]? = some n → n.left = some l →
    i < l ∧ l < st.binTree.length
  right_range : ∀ (i : Nat) (n : MerkleNode) (r : Nat),
    st.binTree[i]? = some n → n.right = some r →
    i < r ∧ r < st.binTree.length
  parent_child : ∀ (i : Nat) (n : MerkleNode) (p : Nat),
    st.binTree[i]? = some n → n.parent = some p →
    ∃ pn : MerkleNode, st.binTree[p]? = some pn ∧
      (pn.left = some i ∨ pn.right = some i)
  no_right_only : ∀ (i : Nat) (n : MerkleNode),
    st.binTree[i]? = some n → n.left = none → n.right = none
  hash_shape : ∀ (i : Nat) (n : MerkleNode),
    st.binTree[i]? = some n → n.hash.isSome →
    (n.left.isSome ∧ n.right.isSome) ∨ (n.left = none ∧ n.right = none)
  child_done : ∀ (i : Nat) (n : MerkleNode) (ch : Nat),
    st.binTree[i]? = some n →
    (n.left = some ch ∨ n.right = some ch) →
    ch ∈ pathOf st ∨ (hashAt st ch).isSome
  internal_eq : ∀ (i : Nat) (n : MerkleNode) (l r : Nat) (h : List Nat),
    st.binTree[i]? = some n → n.left = some l →
    n.right = some r → n.hash = some h →
    ∃ lh rh, hashAt st l = some lh ∧ hashAt st r = some rh ∧
      h = doubleSha256 (lh ++ rh)
  cur_hash_none : ∀ c : Nat, st.current = some c → hashAt st c = none
  fresh_last : ∀ (i : Nat) (n : MerkleNode),
    st.binTree[i]? = some n → n.left = none → n.right = none →
    n.hash = none → st.current = some i ∧ i + 1 = st.binTree.length
  leaves_pref : leafHashes st.binTree = hs.take st.hashesIndex
  count_eq : st.vbitsIndex + (if isFresh st then 1 else 0) = st.binTree.length

set_option maxRecDepth 1000000

/-! ## Theorems about the embedded code -/

/-- Sanity: SHA-256 of the empty string matches the published test vector. -/
theorem sha256_empty_vector :
    sha256 [] =
      [0xe3, 0xb0, 0xc4, 0x42, 0x98, 0xfc, 0x1c, 0x14, 0x9a, 0xfb, 0xf4, 0xc8,
       0x99, 0x6f, 0xb9, 0x24, 0x27, 0xae, 0x41, 0xe4, 0x64, 0x9b, 0x93, 0x4c,
       0xa4, 0x95, 0x99, 0x1b, 0x78, 0x52, 0xb8, 0x55] := by decide

/-! ## Claim theorems: concrete runs -/

/-- C1: for a valid single-transaction proof (`totalTransactions == 1`, so the
computed height is 0, one hash, flag byte `0x01`), `CreateMerkleBranch` does
not terminate successfully with the leaf's hash as root. Instead it makes the
root node itself a leaf, ascends to the root's nil parent, and dereferences
that nil pointer at the next loop iteration — a runtime panic, for every hash
value. This contradicts the claim (and the documented example), which expects
the run to succeed and return the hash verbatim. -/
theorem c1_single_tx_panics :
    heightFor 1 = 0 ∧
    unpackVBits [1] = [true, false, false, false, false, false, false, false] ∧
    ∀ h : List Nat,
      createMerkleBranch (unpackVBits [1]) [h] ((heightFor 1 : Nat) : Int) 10 =
        .stuck .nilDeref := by
  refine ⟨rfl, by decide, fun h => rfl⟩

/-- C6: with an empty flag list and a nonempty hash list, the very first loop
iteration evaluates `vbits[vbitsIndex]` with `vbitsIndex = 0` and no bounds
check, reading out of range (a runtime panic) instead of failing with the
`FlagStreamExhausted` error, for every hash value and height. -/
theorem c6_empty_flags_panics :
    ∀ (h : List Nat) (ht : Int),
      createMerkleBranch [] [h] ht 10 = .stuck .indexOutOfRange := by
  intro h ht; rfl

/-- C2 counterexample: on flags `0x03` (bits `1,1,0,0,…`), two hashes and
height 2, the walk runs out of hashes at node 1 — the root's left child, not
the root — yet terminates successfully there: the returned "root" is computed
at node 1 while the actual root node (index 0, the unique node with nil
parent) never receives a hash. This refutes the claim that successful
termination coincides with being back at the root node. -/
theorem c2_counterexample :
    isOkRes (createMerkleBranch (unpackVBits [3]) [[7], [9]] 2 100) = true ∧
    (finalState (createMerkleBranch (unpackVBits [3]) [[7], [9]] 2 100)).map
      MBState.current = some (some 1) ∧
    (finalState (createMerkleBranch (unpackVBits [3]) [[7], [9]] 2 100)).map
      (fun st => st.binTree[0]?.bind MerkleNode.parent) = some none ∧
    (finalState (createMerkleBranch (unpackVBits [3]) [[7], [9]] 2 100)).map
      (fun st => hashAt st 0) = some none := by
  refine ⟨rfl, rfl, rfl, rfl⟩

/-- C4 counterexample: on flag byte `0x27` (bits `1,1,1,0,0,1,0,0`), four
hashes and height 3, the walk needs exactly all `8·F = 8` unpacked flag bits;
the post-increment bounds check fires after the final bit is consumed and the
run fails with `FlagStreamExhausted` instead of terminating successfully.
Appending a single padding bit — leaving the walk itself unchanged — makes the
same proof succeed after consuming those same 8 bits, so the failure is caused
solely by the walk consuming exactly all available flag bits. -/
theorem c4_counterexample :
    resErr (createMerkleBranch (unpackVBits [39]) [[1], [2], [3], [4]] 3 100) =
      some .flagExhausted ∧
    isOkRes (createMerkleBranch (unpackVBits [39] ++ [false]) [[1], [2], [3], [4]] 3 100) =
      true ∧
    (finalState (createMerkleBranch (unpackVBits [39] ++ [false]) [[1], [2], [3], [4]] 3 100)).map
      MBState.vbitsIndex = some 8 := by
  refine ⟨rfl, rfl, rfl⟩

/-- C5 counterexample: the proof with flag byte `0x03`, three hashes and
height 2 is valid (it succeeds, terminating at the root node, index 0 with nil
parent). Removing the last hash does not yield any `HashStreamExhausted`
error — the truncated proof is silently accepted, terminating successfully at
a non-root node with a different root hash. -/
theorem c5_counterexample :
    isOkRes (createMerkleBranch (unpackVBits [3]) [[1], [2], [3]] 2 100) = true ∧
    (finalState (createMerkleBranch (unpackVBits [3]) [[1], [2], [3]] 2 100)).map
      MBState.current = some (some 0) ∧
    isOkRes (createMerkleBranch (unpackVBits [3]) [[1], [2]] 2 100) = true ∧
    finalRoot (createMerkleBranch (unpackVBits [3]) [[1], [2]] 2 100) ≠
      finalRoot (createMerkleBranch (unpackVBits [3]) [[1], [2], [3]] 2 100) := by
  refine ⟨rfl, rfl, rfl, by decide⟩

/-- C5 amended: the only error values `CreateMerkleBranch` can return are the
"all hashes is parsed" (`IncompleteProof`) and "vBits is too short"
(`FlagStreamExhausted`) errors — no separate `HashStreamExhausted` error
exists; truncating the hash list of a valid proof can even be silently
accepted (see the counterexample), and truncating away the only flag byte of
the valid two-leaf proof (flag byte `0x01`, two hashes, height 1) makes the
reconstructor read the empty flag array out of bounds — a panic, not a
`FlagStreamExhausted` or `IncompleteProof` error. -/
theorem c5_amended_errors :
    (∀ vb hs ht fuel e st', createMerkleBranch vb hs ht fuel = .fail e st' →
      e = .incompleteProof ∨ e = .flagExhausted) ∧
    isOkRes (createMerkleBranch (unpackVBits [1]) [[1], [2]] 1 100) = true ∧
    createMerkleBranch [] [[1], [2]] 1 100 = .stuck .indexOutOfRange := by
  refine ⟨fun vb hs ht fuel e st' _ => ?_, rfl, rfl⟩
  cases e
  · exact Or.inl rfl
  · exact Or.inr rfl

/-- C5 amended witness: the hypotheses of the universally quantified part are
satisfiable — a run on an empty hash list fails with the `IncompleteProof`
error, which is one of the two error values. -/
theorem c5_amended_errors_witness :
    BranchErr.incompleteProof = BranchErr.incompleteProof ∨
      BranchErr.incompleteProof = BranchErr.flagExhausted :=
  c5_amended_errors.1 (unpackVBits [1]) [] 1 100 BranchErr.incompleteProof
    { binTree := [⟨none, none, none, none⟩], target := none, current := some 0,
      vbitsIndex := 0, hashesIndex := 0, depth := 0 } (by decide)

/-- C7 counterexample: with height 1 and two hashes, the flag bytes `0x07`
(both leaves matched) and `0x05` (only the second leaf matched) produce
byte-for-byte identical results: the same tree, the same root, and the same
single `target` pointer recording only node 2 (the last matched leaf). The
first matched leaf of the `0x07` run is therefore not distinguishable in the
output, refuting the claim that every matched leaf is exposed. -/
theorem c7_counterexample :
    createMerkleBranch (unpackVBits [7]) [[1], [2]] 1 100 =
      createMerkleBranch (unpackVBits [5]) [[1], [2]] 1 100 ∧
    unpackVBits [7] ≠ unpackVBits [5] ∧
    (finalState (createMerkleBranch (unpackVBits [7]) [[1], [2]] 1 100)).map
      MBState.target = some (some 2) := by
  refine ⟨rfl, by decide, rfl⟩

/-! ## Claim theorems: decoder -/

/-- C8: `readVarInt` follows the CompactSize discriminant mapping: any byte
below `0xfd` is the value itself (so `0xfc` is 252), `0xfd` reads a 2-byte,
`0xfe` a 4-byte and `0xff` an 8-byte little-endian extension — so
`0xfd 0x00 0x01` is 256 — and no minimal-encoding check is made:
`0xfd 0x01 0x00` decodes as 1 without error. -/
theorem c8_readVarInt_mapping :
    (∀ d rest, d < 253 → readVarInt (d :: rest) = some (d, rest)) ∧
    (∀ b0 b1 rest, readVarInt (253 :: b0 :: b1 :: rest) = some (b0 + 256 * b1, rest)) ∧
    (∀ rest, readVarInt (253 :: 0 :: 1 :: rest) = some (256, rest)) ∧
    (∀ b0 b1 b2 b3 rest, readVarInt (254 :: b0 :: b1 :: b2 :: b3 :: rest) =
      some (b0 + 256 * (b1 + 256 * (b2 + 256 * b3)), rest)) ∧
    (∀ b0 b1 b2 b3 b4 b5 b6 b7 rest,
      readVarInt (255 :: b0 :: b1 :: b2 :: b3 :: b4 :: b5 :: b6 :: b7 :: rest) =
        some (b0 + 256 * (b1 + 256 * (b2 + 256 * (b3 + 256 *
          (b4 + 256 * (b5 + 256 * (b6 + 256 * b7)))))), rest)) ∧
    (∀ rest, readVarInt (253 :: 1 :: 0 :: rest) = some (1, rest)) := by
  refine ⟨fun d rest hd => ?_, fun b0 b1 rest => ?_, fun rest => rfl,
          fun b0 b1 b2 b3 rest => ?_, fun b0 b1 b2 b3 b4 b5 b6 b7 rest => ?_,
          fun rest => rfl⟩
  · have h1 : d ≠ 253 := by omega
    have h2 : d ≠ 254 := by omega
    have h3 : d ≠ 255 := by omega
    simp [readVarInt, h1, h2, h3]
  · simp [readVarInt, readLE]
  · simp [readVarInt, readLE]
  · simp [readVarInt, readLE]

/-- C8 witness: the boundary byte `0xfc` decodes as the literal value 252. -/
theorem c8_readVarInt_mapping_witness :
    readVarInt [252] = some (252, []) :=
  c8_readVarInt_mapping.1 252 [] (by decide)

/-- C9: flag-byte unpacking produces exactly `8·F` bits, LSB-first within each
byte — bit `i` of byte `b` lands at flag index `8·b + i` — and the single byte
`0b00000101` unpacks to `[1,0,1,0,0,0,0,0]`. -/
theorem c9_flag_unpacking :
    (∀ bytes : List Nat, (unpackVBits bytes).length = 8 * bytes.length) ∧
    (∀ (bytes : List Nat) (b i byte : Nat), bytes[b]? = some byte → i < 8 →
      (unpackVBits bytes)[8 * b + i]? = some (((byte >>> i) &&& 1) == 1)) ∧
    unpackVBits [5] = [true, false, true, false, false, false, false, false] := by
  have hcons : ∀ (x : Nat) (xs : List Nat),
      unpackVBits (x :: xs) = byteToBits x ++ unpackVBits xs := fun x xs => rfl
  have hlen8 : ∀ x : Nat, (byteToBits x).length = 8 := fun x => by
    simp [byteToBits]
  refine ⟨fun bytes => ?_, fun bytes => ?_, by decide⟩
  · induction bytes with
    | nil => rfl
    | cons x xs ih =>
      rw [hcons, List.length_append, hlen8, ih, List.length_cons]
      ring
  · induction bytes with
    | nil => intro b i byte hb; simp at hb
    | cons x xs ih =>
      intro b i byte hb hi
      cases b with
      | zero =>
        simp at hb
        subst hb
        rw [hcons, Nat.mul_zero, Nat.zero_add,
          List.getElem?_append_left (by rw [hlen8]; exact hi)]
        simp only [byteToBits, List.getElem?_map, List.getElem?_range hi, Option.map_some']
      | succ b' =>
        rw [List.getElem?_cons_succ] at hb
        rw [hcons, List.getElem?_append_right (by rw [hlen8]; omega)]
        have harith : 8 * (b' + 1) + i - (byteToBits x).length = 8 * b' + i := by
          rw [hlen8]; ring_nf; omega
        rw [harith]
        exact ih b' i byte hb hi

/-- C9 witness: byte 5 at index 0, bit 1, lands at flag index 1 and is 0. -/
theorem c9_flag_unpacking_witness :
    (unpackVBits [5])[8 * 0 + 1]? = some (((5 >>> 1) &&& 1) == 1) :=
  c9_flag_unpacking.2.1 [5] 0 1 5 (by decide) (by decide)

/-- Appending bytes to the stream does not disturb a successful `readLE`. -/
theorem readLE_append (ex : List Nat) :
    ∀ (n : Nat) (bs : List Nat) (v : Nat) (rest : List Nat),
      readLE n bs = some (v, rest) → readLE n (bs ++ ex) = some (v, rest ++ ex) := by
  intro n
  induction n with
  | zero =>
    intro bs v rest h
    simp only [readLE] at h ⊢
    injection h with h'
    injection h' with hv hr
    rw [← hv, ← hr]
  | succ n ih =>
    intro bs v rest h
    cases bs with
    | nil => simp [readLE] at h
    | cons b bs' =>
      simp only [readLE, Option.map_eq_some'] at h
      obtain ⟨⟨v', rest'⟩, hv', heq⟩ := h
      have ih' := ih bs' v' rest' hv'
      simp only [List.cons_append, readLE, List.append_eq] at ih' ⊢
      simp only [ih', Option.map_some', Option.some.injEq, Prod.mk.injEq]
      simp only [Prod.mk.injEq] at heq
      exact ⟨heq.1, by rw [← heq.2]⟩

/-- Appending bytes to the stream does not disturb a successful `readVarInt`. -/
theorem readVarInt_append (bs ex : List Nat) (v : Nat) (rest : List Nat)
    (h : readVarInt bs = some (v, rest)) :
    readVarInt (bs ++ ex) = some (v, rest ++ ex) := by
  cases bs with
  | nil => simp [readVarInt] at h
  | cons d bs' =>
    simp only [readVarInt] at h
    simp only [List.cons_append, readVarInt]
    split at h
    · rw [if_pos (by assumption)]; exact readLE_append ex 2 bs' v rest h
    · split at h
      · rw [if_neg (by assumption), if_pos (by assumption)]
        exact readLE_append ex 4 bs' v rest h
      · split at h
        · rw [if_neg (by assumption), if_neg (by assumption), if_pos (by assumption)]
          exact readLE_append ex 8 bs' v rest h
        · rw [if_neg (by assumption), if_neg (by assumption), if_neg (by assumption)]
          injection h with h'
          injection h' with h1 h2
          rw [h1, h2]

/-- Appending bytes to the stream does not disturb a successful `readChunk`. -/
theorem readChunk_append (n : Nat) (bs ex out rest : List Nat)
    (h : readChunk n bs = some (out, rest)) :
    readChunk n (bs ++ ex) = some (out, rest ++ ex) := by
  simp only [readChunk] at h
  split at h
  case isTrue hle =>
    injection h with h'
    injection h' with h1 h2
    simp only [readChunk, List.length_append,
      if_pos (Nat.le_trans hle (Nat.le_add_right _ _)),
      List.take_append_of_le_length hle, List.drop_append_of_le_length hle]
    rw [h1, ← h2]
  case isFalse => exact absurd h (by simp)

/-- Appending bytes to the stream does not disturb a successful `readHashes`. -/
theorem readHashes_append (ex : List Nat) :
    ∀ (n : Nat) (bs : List Nat) (out : List (List Nat)) (rest : List Nat),
      readHashes n bs = some (out, rest) →
      readHashes n (bs ++ ex) = some (out, rest ++ ex) := by
  intro n
  induction n with
  | zero =>
    intro bs out rest h
    simp [readHashes] at h ⊢
    exact ⟨h.1, by rw [h.2]⟩
  | succ n ih =>
    intro bs out rest h
    simp only [readHashes] at h ⊢
    cases hchunk : readChunk 32 bs with
    | none => simp [hchunk] at h
    | some p =>
      obtain ⟨h1, r1⟩ := p
      simp only [hchunk, Option.some_bind] at h
      cases hrec : readHashes n r1 with
      | none => simp [hrec] at h
      | some q =>
        obtain ⟨t, r2⟩ := q
        simp only [hrec, Option.map_some'] at h
        injection h with h'
        injection h' with ho hr
        simp only [readChunk_append 32 bs ex h1 r1 hchunk, Option.some_bind,
          ih r1 t r2 hrec, Option.map_some']
        rw [← ho, ← hr]

/-- C10: the decoder never checks that the buffer is fully consumed: whenever a
buffer decodes successfully, appending arbitrary trailing bytes after the
flag-byte array still decodes successfully and returns the identical header and
proof data. -/
theorem c10_decoder_ignores_trailing_bytes :
    ∀ (buf extra : List Nat) (res : BlockHeader × MerkleProofData),
      decodeTxOutProofData buf = .ok res →
      decodeTxOutProofData (buf ++ extra) = .ok res := by
  intro buf extra res h
  unfold decodeTxOutProofData at h ⊢
  split at h
  · exact absurd h (by simp)
  case isFalse hlen =>
    have hlen' : 80 ≤ buf.length := by omega
    rw [if_neg (by simp [List.length_append]; omega)]
    rw [List.take_append_of_le_length hlen', List.drop_append_of_le_length hlen']
    split at h
    · exact absurd h (by simp)
    case isFalse hne =>
      rw [if_neg (by intro hc; exact hne (List.append_eq_nil.mp hc).1)]
      cases h1 : readLE 4 (buf.drop 80) with
      | none => simp [h1] at h
      | some p1 =>
        obtain ⟨totalTx, r1⟩ := p1
        simp only [h1] at h
        simp only [readLE_append extra 4 _ _ _ h1]
        cases h2 : readVarInt r1 with
        | none => simp [h2] at h
        | some p2 =>
          obtain ⟨hashNum, r2⟩ := p2
          simp only [h2] at h
          simp only [readVarInt_append r1 extra _ _ h2]
          cases h3 : readHashes hashNum r2 with
          | none => simp [h3] at h
          | some p3 =>
            obtain ⟨hashes, r3⟩ := p3
            simp only [h3] at h
            simp only [readHashes_append extra hashNum r2 _ _ h3]
            cases h4 : readVarInt r3 with
            | none => simp [h4] at h
            | some p4 =>
              obtain ⟨vbitsNum, r4⟩ := p4
              simp only [h4] at h
              simp only [readVarInt_append r3 extra _ _ h4]
              cases h5 : readChunk vbitsNum r4 with
              | none => simp [h5] at h
              | some p5 =>
                obtain ⟨vbytes, r5⟩ := p5
                simp only [h5] at h
                simp only [readChunk_append vbitsNum r4 extra _ _ h5]
                exact h

/-- C10 witness: a concrete 119-byte well-formed proof buffer still decodes to
the same result after a trailing garbage byte is appended. -/
theorem c10_decoder_ignores_trailing_bytes_witness :
    ∃ res, decodeTxOutProofData (List.replicate 80 0 ++ [2, 0, 0, 0] ++ [1] ++
        List.replicate 32 7 ++ [1] ++ [1]) = .ok res ∧
      decodeTxOutProofData ((List.replicate 80 0 ++ [2, 0, 0, 0] ++ [1] ++
        List.replicate 32 7 ++ [1] ++ [1]) ++ [171]) = .ok res := by
  refine ⟨_, rfl, c10_decoder_ignores_trailing_bytes _ [171] _ rfl⟩

/-! ## Step inversion -/

theorem vbitsGuard_not_ok (vb : List Bool) (st' : MBState) (r : List Nat)
    (st'' : MBState) : vbitsGuard vb st' ≠ .ok r st'' := by
  unfold vbitsGuard; split <;> simp

theorem flagStep_not_ok (vb : List Bool) (hs : List (List Nat)) (ht : Int)
    (st : MBState) (c2 : Nat) (r : List Nat) (st'' : MBState) :
    flagStep vb hs ht st c2 ≠ .ok r st'' := by
  unfold flagStep
  split
  · simp
  · split
    · split
      · simp
      · intro hcontra; exact vbitsGuard_not_ok _ _ _ _ hcontra
    · intro hcontra; exact vbitsGuard_not_ok _ _ _ _ hcontra

/-- A step returns `.ok` only from the success branch at the top of the loop:
the hash stream is exhausted and the current node has two children whose
hashes are set; the returned root is the double SHA-256 of those hashes and
the only state change is writing that root into the current node. -/
theorem step_ok_inversion (vb : List Bool) (hs : List (List Nat)) (ht : Int)
    (st : MBState) (r : List Nat) (st' : MBState)
    (hok : step vb hs ht st = .ok r st') :
    st.hashesIndex = hs.length ∧
    ∃ c cn l rr lh rh,
      st.current = some c ∧ st.binTree[c]? = some cn ∧
      cn.left = some l ∧ cn.right = some rr ∧
      hashAt st l = some lh ∧ hashAt st rr = some rh ∧
      r = doubleSha256 (lh ++ rh) ∧
      st' = setHashAt st c r := by
  by_cases hlen : st.hashesIndex = hs.length
  case pos =>
    rw [step, if_pos hlen] at hok
    cases hc : st.current with
    | none => simp [hc] at hok
    | some c =>
      simp only [hc] at hok
      cases hcn : st.binTree[c]? with
      | none => simp [hcn] at hok
      | some cn =>
        simp only [hcn] at hok
        cases hl : cn.left with
        | none => simp [hl] at hok
        | some l =>
          cases hr : cn.right with
          | none => simp [hl, hr] at hok
          | some rr =>
            simp only [hl, hr] at hok
            cases hlh : hashAt st l with
            | none => simp [hlh] at hok
            | some lh =>
              cases hrh : hashAt st rr with
              | none => simp [hlh, hrh] at hok
              | some rh =>
                simp only [hlh, hrh] at hok
                injection hok with h1 h2
                refine ⟨hlen, c, cn, l, rr, lh, rh, rfl, hcn, hl, hr, hlh, hrh,
                  h1.symm, ?_⟩
                rw [← h2, ← h1]
  case neg =>
    rw [step, if_neg hlen] at hok
    cases hc : st.current with
    | none => simp [hc] at hok
    | some c =>
      simp only [hc] at hok
      cases hcn : st.binTree[c]? with
      | none => simp [hcn] at hok
      | some cn =>
        simp only [hcn] at hok
        cases hl : cn.left with
        | none =>
          simp only [hl] at hok
          exact (flagStep_not_ok _ _ _ _ _ _ _ hok).elim
        | some l =>
          cases hr : cn.right with
          | none =>
            simp only [hl, hr] at hok
            exact (flagStep_not_ok _ _ _ _ _ _ _ hok).elim
          | some rr =>
            simp [hl, hr] at hok

/-- A successful run consists of some number of `.next` steps followed by one
`.ok` step. -/
theorem runLoop_ok_inversion (vb : List Bool) (hs : List (List Nat)) (ht : Int) :
    ∀ (fuel : Nat) (st : MBState) (r : List Nat) (st' : MBState),
      runLoop vb hs ht fuel st = .ok r st' →
      ∃ (n : Nat) (st0 : MBState), stepsN vb hs ht n st = some st0 ∧
        step vb hs ht st0 = .ok r st' := by
  intro fuel
  induction fuel with
  | zero => intro st r st' h; simp [runLoop] at h
  | succ fuel ih =>
    intro st r st' h
    rw [runLoop] at h
    cases hs1 : step vb hs ht st with
    | next st1 =>
      simp only [hs1] at h
      obtain ⟨n, st0, hsteps, hstep⟩ := ih st1 r st' h
      refine ⟨n + 1, st0, ?_, hstep⟩
      rw [stepsN]
      simp only [hs1]
      exact hsteps
    | ok r0 st0 =>
      simp only [hs1] at h
      injection h with h1 h2
      exact ⟨0, st, rfl, by rw [hs1, h1, h2]⟩
    | fail e st0 => simp [hs1] at h
    | stuck p => simp [hs1] at h

/-! ## Claim theorems: success condition (C2 amended) and matched-leaf marking
(C7 amended) -/

/-- C2 (amended): the walk terminates successfully exactly when the hash
stream is exhausted while the current node — which need not be the root node —
has both children created with hashes assigned; the returned root is then
`doubleSHA256(left.hash ++ right.hash)` of that current node, which receives it
as its hash. If the hash stream is exhausted and the current node is missing a
child or a child hash, the walk fails with the `IncompleteProof` error
instead of returning a hash. -/
theorem c2_amended_success_iff :
    (∀ vb hs ht fuel r st', createMerkleBranch vb hs ht fuel = .ok r st' →
      ∃ n st0 c cn l rr lh rh,
        stepsN vb hs ht n initState = some st0 ∧
        st0.hashesIndex = hs.length ∧
        st0.current = some c ∧ st0.binTree[c]? = some cn ∧
        cn.left = some l ∧ cn.right = some rr ∧
        hashAt st0 l = some lh ∧ hashAt st0 rr = some rh ∧
        r = doubleSha256 (lh ++ rh) ∧
        st' = setHashAt st0 c r) ∧
    (∀ vb hs ht st c cn l rr lh rh,
      st.hashesIndex = hs.length → st.current = some c →
      st.binTree[c]? = some cn → cn.left = some l → cn.right = some rr →
      hashAt st l = some lh → hashAt st rr = some rh →
      step vb hs ht st = .ok (doubleSha256 (lh ++ rh))
        (setHashAt st c (doubleSha256 (lh ++ rh)))) ∧
    (∀ vb hs ht st c cn,
      st.hashesIndex = hs.length → st.current = some c →
      st.binTree[c]? = some cn →
      (cn.left = none ∨ cn.right = none ∨
        (∃ l, cn.left = some l ∧ hashAt st l = none) ∨
        (∃ rr, cn.right = some rr ∧ hashAt st rr = none)) →
      step vb hs ht st = .fail .incompleteProof st) := by
  refine ⟨?_, ?_, ?_⟩
  · intro vb hs ht fuel r st' h
    obtain ⟨n, st0, hsteps, hstep⟩ := runLoop_ok_inversion vb hs ht fuel initState r st' h
    obtain ⟨hlen, c, cn, l, rr, lh, rh, hc, hcn, hl, hr, hlh, hrh, hroot, hst'⟩ :=
      step_ok_inversion vb hs ht st0 r st' hstep
    exact ⟨n, st0, c, cn, l, rr, lh, rh, hsteps, hlen, hc, hcn, hl, hr, hlh, hrh,
      hroot, hst'⟩
  · intro vb hs ht st c cn l rr lh rh hlen hc hcn hl hr hlh hrh
    rw [step, if_pos hlen]
    simp only [hc, hcn, hl, hr, hlh, hrh]
  · intro vb hs ht st c cn hlen hc hcn hbad
    rw [step, if_pos hlen]
    simp only [hc, hcn]
    rcases hbad with hl | hr | ⟨l, hl, hlh⟩ | ⟨rr, hr, hrh⟩
    · simp only [hl]
    · cases hcl : cn.left with
      | none => simp only [hcl]
      | some l => simp only [hcl, hr]
    · cases hcr : cn.right with
      | none => simp only [hl, hcr]
      | some rr => simp only [hl, hcr, hlh]
    · cases hcl : cn.left with
      | none => simp only [hcl]
      | some l =>
        simp only [hcl, hr]
        cases hlh2 : hashAt st l with
        | none => simp only [hlh2]
        | some lh => simp only [hlh2, hrh]

/-- C2 amended witness: a concrete complete three-node state with an exhausted
hash stream steps to success with root `doubleSHA256([7] ++ [9])`. -/
theorem c2_amended_success_iff_witness :
    step [] [] 0
      { binTree := [⟨none, some 1, some 2, none⟩, ⟨some 0, none, none, some [7]⟩,
                    ⟨some 0, none, none, some [9]⟩],
        target := none, current := some 0, vbitsIndex := 0, hashesIndex := 0,
        depth := 0 } =
      .ok (doubleSha256 ([7] ++ [9]))
        (setHashAt
          { binTree := [⟨none, some 1, some 2, none⟩, ⟨some 0, none, none, some [7]⟩,
                        ⟨some 0, none, none, some [9]⟩],
            target := none, current := some 0, vbitsIndex := 0, hashesIndex := 0,
            depth := 0 } 0 (doubleSha256 ([7] ++ [9]))) :=
  c2_amended_success_iff.2.1 [] [] 0
    { binTree := [⟨none, some 1, some 2, none⟩, ⟨some 0, none, none, some [7]⟩,
                  ⟨some 0, none, none, some [9]⟩],
      target := none, current := some 0, vbitsIndex := 0, hashesIndex := 0,
      depth := 0 }
    0 ⟨none, some 1, some 2, none⟩ 1 2 [7] [9] rfl rfl rfl rfl rfl rfl rfl

/-- C7 (amended): during the leaf step the single `target` pointer is set to
the current leaf exactly when the consumed flag bit is 1 and the depth equals
the height, and is left unchanged otherwise; no other step (descending into a
new internal node, folding upward, or the final success step) modifies it. The
reconstructor therefore exposes only the last matched leaf, not every matched
leaf. -/
theorem c7_amended_mark_condition :
    (∀ vb hs ht st c2 b hsh,
      vb[st.vbitsIndex]? = some b → hs[st.hashesIndex]? = some hsh →
      (!b || st.depth == ht) = true →
      resTarget (flagStep vb hs ht st c2) =
        some (if b && st.depth == ht then some c2 else st.target)) ∧
    (∀ vb hs ht st c2 b,
      vb[st.vbitsIndex]? = some b → (!b || st.depth == ht) = false →
      resTarget (flagStep vb hs ht st c2) = some st.target) ∧
    (∀ st c l r cn, (foldStep st c l r cn).target = st.target) ∧
    (∀ vb hs ht st r st', step vb hs ht st = .ok r st' → st'.target = st.target) := by
  refine ⟨?_, ?_, ?_, ?_⟩
  · intro vb hs ht st c2 b hsh hb hhsh hleaf
    rw [flagStep]
    simp only [hb, hhsh, hleaf]
    simp only [if_true]
    simp only [vbitsGuard]
    split <;> rfl
  · intro vb hs ht st c2 b hb hleaf
    rw [flagStep]
    simp only [hb, hleaf]
    simp only [Bool.false_eq_true, if_false]
    simp only [vbitsGuard]
    split <;> rfl
  · intro st c l r cn; rfl
  · intro vb hs ht st r st' hok
    obtain ⟨_, c, cn, l, rr, lh, rh, _, _, _, _, _, _, _, hst'⟩ :=
      step_ok_inversion vb hs ht st r st' hok
    rw [hst']
    rfl

/-- C7 amended witness: with one flag bit 1, one hash, height 0 and depth 0,
the leaf step sets the target to the current node. -/
theorem c7_amended_mark_condition_witness :
    resTarget (flagStep [true] [[5]] 0 initState 0) =
      some (if true && ((0 : Int) == 0) then some 0 else initState.target) :=
  c7_amended_mark_condition.1 [true] [[5]] 0 initState 0 true [5]
    (by decide) (by decide) (by decide)

theorem updateNode_length (ns : List MerkleNode) (i : Nat)
    (f : MerkleNode → MerkleNode) : (updateNode ns i f).length = ns.length := by
  unfold updateNode; cases h : ns[i]? <;> simp

theorem updateNode_get_self (ns : List MerkleNode) (i : Nat)
    (f : MerkleNode → MerkleNode) (n : MerkleNode) (h : ns[i]? = some n) :
    (updateNode ns i f)[i]? = some (f n) := by
  unfold updateNode
  rw [h]
  exact List.getElem?_set_eq (by exact (List.getElem?_eq_some.mp h).1)

theorem updateNode_get_ne (ns : List MerkleNode) (i : Nat)
    (f : MerkleNode → MerkleNode) (j : Nat) (hij : i ≠ j) :
    (updateNode ns i f)[j]? = ns[j]? := by
  unfold updateNode
  cases h : ns[i]? with
  | none => rfl
  | some n => exact List.getElem?_set_ne hij

theorem get_append_lt (ns : List MerkleNode) (x : MerkleNode) (j : Nat)
    (h : j < ns.length) : (ns ++ [x])[j]? = ns[j]? :=
  List.getElem?_append_left h

theorem get_append_self (ns : List MerkleNode) (x : MerkleNode) :
    (ns ++ [x])[ns.length]? = some x := by
  rw [List.getElem?_append_right le_rfl]
  simp

theorem filterMap_set_congr (f : MerkleNode → Option (List Nat)) :
    ∀ (ns : List MerkleNode) (c : Nat) (a a' : MerkleNode),
      ns[c]? = some a → f a' = f a →
      (ns.set c a').filterMap f = ns.filterMap f := by
  intro ns
  induction ns with
  | nil => intro c a a' h _; simp at h
  | cons x xs ih =>
    intro c a a' h he
    cases c with
    | zero =>
      simp only [List.getElem?_cons_zero, Option.some.injEq] at h
      subst h
      simp only [List.set_cons_zero, List.filterMap_cons, he]
    | succ c' =>
      rw [List.getElem?_cons_succ] at h
      simp only [List.set_cons_succ, List.filterMap_cons, ih c' a a' h he]

theorem wf_init (hs : List (List Nat)) : Wf hs initState := by
  have hget : ∀ (i : Nat) (n : MerkleNode),
      initState.binTree[i]? = some n →
      i = 0 ∧ n = ⟨none, none, none, none⟩ := by
    intro i n h
    cases i with
    | zero =>
      simp only [initState, List.getElem?_cons_zero, Option.some.injEq] at h
      exact ⟨rfl, h.symm⟩
    | succ i' => simp [initState] at h
  constructor
  · intro c hc
    simp only [initState, Option.some.injEq] at hc
    subst hc
    decide
  · intro i n p h hp
    obtain ⟨hi, hn⟩ := hget i n h
    subst hn
    simp at hp
  · intro i n l h hl
    obtain ⟨hi, hn⟩ := hget i n h
    subst hn
    simp at hl
  · intro i n r h hr
    obtain ⟨hi, hn⟩ := hget i n h
    subst hn
    simp at hr
  · intro i n p h hp
    obtain ⟨hi, hn⟩ := hget i n h
    subst hn
    simp at hp
  · intro i n h _
    obtain ⟨hi, hn⟩ := hget i n h
    subst hn
    rfl
  · intro i n h hh
    obtain ⟨hi, hn⟩ := hget i n h
    subst hn
    simp at hh
  · intro i n ch h hch
    obtain ⟨hi, hn⟩ := hget i n h
    subst hn
    simp at hch
  · intro i n l r hh h hl
    obtain ⟨hi, hn⟩ := hget i n h
    subst hn
    simp at hl
  · intro c hc
    simp only [initState, Option.some.injEq] at hc
    subst hc
    rfl
  · intro i n h _ _ _
    obtain ⟨hi, hn⟩ := hget i n h
    subst hi
    exact ⟨rfl, rfl⟩
  · rfl
  · rfl

theorem ancestors_le (ns : List MerkleNode)
    (hpar : ∀ (i : Nat) (n : MerkleNode) (p : Nat),
      ns[i]? = some n → n.parent = some p → p < i) :
    ∀ (fuel c j : Nat), j ∈ ancestors ns fuel c → j ≤ c := by
  intro fuel
  induction fuel with
  | zero =>
    intro c j hj
    simp only [ancestors, List.mem_singleton] at hj
    omega
  | succ fuel ih =>
    intro c j hj
    rw [ancestors] at hj
    rcases List.mem_cons.mp hj with h | h
    · omega
    · cases hp : ns[c]?.bind MerkleNode.parent with
      | none => simp only [hp] at h; simp at h
      | some p =>
        simp only [hp] at h
        obtain ⟨n, hn, hpp⟩ := Option.bind_eq_some.mp hp
        have hpc : p < c := hpar c n p hn hpp
        exact le_trans (ih p j h) (by omega)

theorem ancestors_stable (ns : List MerkleNode)
    (hpar : ∀ (i : Nat) (n : MerkleNode) (p : Nat),
      ns[i]? = some n → n.parent = some p → p < i) :
    ∀ (c fuel fuel' : Nat), c ≤ fuel → c ≤ fuel' →
      ancestors ns fuel c = ancestors ns fuel' c := by
  intro c
  induction c using Nat.strong_induction_on with
  | _ c ih =>
    intro fuel fuel' hf hf'
    cases fuel with
    | zero =>
      have hc : c = 0 := by omega
      subst hc
      cases fuel' with
      | zero => rfl
      | succ f' =>
        rw [ancestors, ancestors]
        cases hp : ns[(0 : Nat)]?.bind MerkleNode.parent with
        | none => simp [hp]
        | some p =>
          obtain ⟨n, hn, hpp⟩ := Option.bind_eq_some.mp hp
          exact absurd (hpar 0 n p hn hpp) (by omega)
    | succ f =>
      cases fuel' with
      | zero =>
        have hc : c = 0 := by omega
        subst hc
        rw [ancestors, ancestors]
        cases hp : ns[(0 : Nat)]?.bind MerkleNode.parent with
        | none => simp [hp]
        | some p =>
          obtain ⟨n, hn, hpp⟩ := Option.bind_eq_some.mp hp
          exact absurd (hpar 0 n p hn hpp) (by omega)
      | succ f' =>
        rw [ancestors, ancestors]
        cases hp : ns[c]?.bind MerkleNode.parent with
        | none => rfl
        | some p =>
          obtain ⟨n, hn, hpp⟩ := Option.bind_eq_some.mp hp
          have hpc : p < c := hpar c n p hn hpp
          simp only [hp]
          rw [ih p hpc f f' (by omega) (by omega)]

theorem ancestors_congr (ns ns' : List MerkleNode)
    (hpar : ∀ (i : Nat) (n : MerkleNode) (p : Nat),
      ns[i]? = some n → n.parent = some p → p < i) :
    ∀ (fuel c : Nat),
      (∀ j : Nat, j ≤ c →
        ns[j]?.bind MerkleNode.parent = ns'[j]?.bind MerkleNode.parent) →
      ancestors ns fuel c = ancestors ns' fuel c := by
  intro fuel
  induction fuel with
  | zero => intro c _; rfl
  | succ fuel ih =>
    intro c hj
    rw [ancestors, ancestors, ← hj c le_rfl]
    cases hp : ns[c]?.bind MerkleNode.parent with
    | none => rfl
    | some p =>
      obtain ⟨n, hn, hpp⟩ := Option.bind_eq_some.mp hp
      have hpc : p < c := hpar c n p hn hpp
      simp only [hp]
      rw [ih p (fun j hjp => hj j (by omega))]

theorem ancestors_cons (ns : List MerkleNode)
    (hpar : ∀ (i : Nat) (n : MerkleNode) (p : Nat),
      ns[i]? = some n → n.parent = some p → p < i) (c : Nat) :
    ancestors ns c c = c :: (match ns[c]?.bind MerkleNode.parent with
      | none => []
      | some p => ancestors ns p p) := by
  cases c with
  | zero =>
    rw [ancestors]
    cases hp : ns[(0 : Nat)]?.bind MerkleNode.parent with
    | none => rfl
    | some p =>
      obtain ⟨n, hn, hpp⟩ := Option.bind_eq_some.mp hp
      exact absurd (hpar 0 n p hn hpp) (by omega)
  | succ f =>
    rw [ancestors]
    cases hp : ns[f + 1]?.bind MerkleNode.parent with
    | none => rfl
    | some p =>
      obtain ⟨n, hn, hpp⟩ := Option.bind_eq_some.mp hp
      have hpc : p < f + 1 := hpar (f + 1) n p hn hpp
      simp only [hp]
      rw [ancestors_stable ns hpar p f p (by omega) le_rfl]

theorem hashAt_of_get (st : MBState) (c : Nat) (cn : MerkleNode)
    (hcn : st.binTree[c]? = some cn) : hashAt st c = cn.hash := by
  rw [hashAt, hcn]; rfl

theorem pathOf_le (st : MBState)
    (hpar : ∀ (i : Nat) (n : MerkleNode) (p : Nat),
      st.binTree[i]? = some n → n.parent = some p → p < i)
    (c : Nat) (hc : st.current = some c) :
    ∀ j, j ∈ pathOf st → j ≤ c := by
  intro j hj
  unfold pathOf at hj
  simp only [hc] at hj
  exact ancestors_le st.binTree hpar c c j hj

theorem parent_has_left (hs : List (List Nat)) (st : MBState) (hwf : Wf hs st)
    (p i : Nat) (pn : MerkleNode) (hpn : st.binTree[p]? = some pn)
    (hch : pn.left = some i ∨ pn.right = some i) :
    ∃ l0, pn.left = some l0 := by
  rcases hch with h | h
  · exact ⟨i, h⟩
  · cases hl0 : pn.left with
    | some l0 => exact ⟨l0, rfl⟩
    | none =>
      have hforce := hwf.no_right_only p pn hpn hl0
      rw [hforce] at h
      cases h

/-- A node whose child has no hash yet cannot itself have a hash. -/
theorem hashed_parent_none (hs : List (List Nat)) (st : MBState) (hwf : Wf hs st)
    (p c : Nat) (pn cn : MerkleNode) (hpn : st.binTree[p]? = some pn)
    (hcn : st.binTree[c]? = some cn)
    (hch : pn.left = some c ∨ pn.right = some c) (hcnh : cn.hash = none) :
    pn.hash = none := by
  cases hh : pn.hash with
  | none => rfl
  | some h' =>
    exfalso
    have hshape := hwf.hash_shape p pn hpn (by rw [hh]; rfl)
    rcases hshape with ⟨hls, hrs⟩ | ⟨hln, hrn⟩
    · obtain ⟨l', hl'⟩ := Option.isSome_iff_exists.mp hls
      obtain ⟨r', hr'⟩ := Option.isSome_iff_exists.mp hrs
      obtain ⟨lh', rh', hlh', hrh', _⟩ := hwf.internal_eq p pn l' r' h' hpn hl' hr' hh
      have hcnone : hashAt st c = none := by rw [hashAt_of_get st c cn hcn, hcnh]
      rcases hch with h | h
      · rw [h] at hl'
        injection hl' with he
        rw [← he] at hlh'
        rw [hcnone] at hlh'
        cases hlh'
      · rw [h] at hr'
        injection hr' with he
        rw [← he] at hrh'
        rw [hcnone] at hrh'
        cases hrh'
    · rcases hch with h | h
      · rw [hln] at h; cases h
      · rw [hrn] at h; cases h

theorem wf_fold (hs : List (List Nat)) (st : MBState) (c l r : Nat)
    (cn : MerkleNode) (hwf : Wf hs st) (hc : st.current = some c)
    (hcn : st.binTree[c]? = some cn) (hl : cn.left = some l)
    (hr : cn.right = some r) : Wf hs (foldStep st c l r cn) := by
  have hcC : c < st.binTree.length := hwf.cur_lt c hc
  have hchn : cn.hash = none := by
    have h0 := hwf.cur_hash_none c hc
    rwa [hashAt_of_get st c cn hcn] at h0
  have hlgt := hwf.left_range c cn l hcn hl
  have hrgt := hwf.right_range c cn r hcn hr
  have hpathle := pathOf_le st hwf.parent_lt c hc
  obtain ⟨lh, hlh⟩ : ∃ lh, hashAt st l = some lh := by
    rcases hwf.child_done c cn l hcn (Or.inl hl) with hmem | hsome
    · exact absurd (hpathle l hmem) (by omega)
    · exact Option.isSome_iff_exists.mp hsome
  obtain ⟨rh, hrh⟩ : ∃ rh, hashAt st r = some rh := by
    rcases hwf.child_done c cn r hcn (Or.inr hr) with hmem | hsome
    · exact absurd (hpathle r hmem) (by omega)
    · exact Option.isSome_iff_exists.mp hsome
  set H := doubleSha256 (lh ++ rh) with hH
  have hns' : (foldStep st c l r cn).binTree =
      updateNode st.binTree c
        (fun n => { n with hash := some H }) := by
    rw [foldStep]
    simp only [hchn, if_pos, hlh, hrh]
    rfl
  have hcur' : (foldStep st c l r cn).current = cn.parent := rfl
  have hvb' : (foldStep st c l r cn).vbitsIndex = st.vbitsIndex := rfl
  have hhx' : (foldStep st c l r cn).hashesIndex = st.hashesIndex := rfl
  have hget_self : (foldStep st c l r cn).binTree[c]? =
      some { cn with hash := some H } := by
    rw [hns']
    exact updateNode_get_self st.binTree c _ cn hcn
  have hget_ne : ∀ j, j ≠ c →
      (foldStep st c l r cn).binTree[j]? = st.binTree[j]? := by
    intro j hj
    rw [hns']
    exact updateNode_get_ne st.binTree c _ j (fun he => hj he.symm)
  have hlen' : (foldStep st c l r cn).binTree.length = st.binTree.length := by
    rw [hns', updateNode_length]
  have hparents : ∀ j : Nat, (foldStep st c l r cn).binTree[j]?.bind MerkleNode.parent
      = st.binTree[j]?.bind MerkleNode.parent := by
    intro j
    by_cases hj : j = c
    · subst hj
      rw [hget_self, hcn]
      rfl
    · rw [hget_ne j hj]
  have hhash_ne : ∀ j, j ≠ c →
      hashAt (foldStep st c l r cn) j = hashAt st j := by
    intro j hj
    rw [hashAt, hashAt, hget_ne j hj]
  have hhash_c : hashAt (foldStep st c l r cn) c = some H := by
    rw [hashAt, hget_self]
    rfl
  have hhmono : ∀ j hsh, hashAt st j = some hsh →
      hashAt (foldStep st c l r cn) j = some hsh := by
    intro j hsh hj
    by_cases hjc : j = c
    · subst hjc
      rw [hashAt_of_get st j cn hcn, hchn] at hj
      cases hj
    · rw [hhash_ne j hjc]
      exact hj
  have hparc : st.binTree[c]?.bind MerkleNode.parent = cn.parent := by
    rw [hcn]; rfl
  have hpath_old : pathOf st = c :: (match cn.parent with
      | none => [] | some p => ancestors st.binTree p p) := by
    unfold pathOf
    simp only [hc]
    rw [ancestors_cons st.binTree hwf.parent_lt c, hparc]
  have hpath_new : pathOf (foldStep st c l r cn) = (match cn.parent with
      | none => [] | some p => ancestors st.binTree p p) := by
    unfold pathOf
    rw [hcur']
    cases hp : cn.parent with
    | none => rfl
    | some p =>
      simp only
      exact (ancestors_congr st.binTree (foldStep st c l r cn).binTree
        hwf.parent_lt p p (fun j _ => (hparents j).symm)).symm
  constructor
  · intro c' hc'
    rw [hcur'] at hc'
    have hlt := hwf.parent_lt c cn c' hcn hc'
    rw [hlen']
    omega
  · intro i n p hn hp
    by_cases hic : i = c
    · subst hic
      rw [hget_self] at hn
      injection hn with hn
      subst hn
      exact hwf.parent_lt i cn p hcn hp
    · rw [hget_ne i hic] at hn
      exact hwf.parent_lt i n p hn hp
  · intro i n l' hn hl'
    rw [hlen']
    by_cases hic : i = c
    · subst hic
      rw [hget_self] at hn
      injection hn with hn
      subst hn
      exact hwf.left_range i cn l' hcn hl'
    · rw [hget_ne i hic] at hn
      exact hwf.left_range i n l' hn hl'
  · intro i n r' hn hr'
    rw [hlen']
    by_cases hic : i = c
    · subst hic
      rw [hget_self] at hn
      injection hn with hn
      subst hn
      exact hwf.right_range i cn r' hcn hr'
    · rw [hget_ne i hic] at hn
      exact hwf.right_range i n r' hn hr'
  · intro i n p hn hp
    by_cases hic : i = c
    · subst hic
      rw [hget_self] at hn
      injection hn with hn
      subst hn
      have hp2 : cn.parent = some p := hp
      have hplt : p < i := hwf.parent_lt i cn p hcn hp2
      obtain ⟨pn, hpn, hlr⟩ := hwf.parent_child i cn p hcn hp2
      refine ⟨pn, ?_, hlr⟩
      rw [hget_ne p (by omega)]
      exact hpn
    · rw [hget_ne i hic] at hn
      obtain ⟨pn, hpn, hlr⟩ := hwf.parent_child i n p hn hp
      by_cases hpq : p = c
      · subst hpq
        rw [hcn] at hpn
        injection hpn with hpn
        subst hpn
        refine ⟨{ cn with hash := some H }, hget_self, ?_⟩
        exact hlr
      · exact ⟨pn, by rw [hget_ne p hpq]; exact hpn, hlr⟩
  · intro i n hn hln
    by_cases hic : i = c
    · subst hic
      rw [hget_self] at hn
      injection hn with hn
      subst hn
      have hln2 : cn.left = none := hln
      rw [hl] at hln2
      cases hln2
    · rw [hget_ne i hic] at hn
      exact hwf.no_right_only i n hn hln
  · intro i n hn _
    by_cases hic : i = c
    · subst hic
      rw [hget_self] at hn
      injection hn with hn
      subst hn
      left
      constructor
      · show cn.left.isSome
        rw [hl]; rfl
      · show cn.right.isSome
        rw [hr]; rfl
    · rw [hget_ne i hic] at hn
      exact hwf.hash_shape i n hn (by assumption)
  · intro i n ch hn hch
    have hold : ∃ nOld, st.binTree[i]? = some nOld ∧
        (nOld.left = some ch ∨ nOld.right = some ch) := by
      by_cases hic : i = c
      · subst hic
        rw [hget_self] at hn
        injection hn with hn
        subst hn
        exact ⟨cn, hcn, hch⟩
      · rw [hget_ne i hic] at hn
        exact ⟨n, hn, hch⟩
    obtain ⟨nOld, hnOld, hchOld⟩ := hold
    rcases hwf.child_done i nOld ch hnOld hchOld with hmem | hsome
    · rw [hpath_old] at hmem
      rcases List.mem_cons.mp hmem with he | he
      · subst he
        right
        rw [hhash_c]
        rfl
      · left
        rw [hpath_new]
        exact he
    · right
      obtain ⟨hsh, hhsh⟩ := Option.isSome_iff_exists.mp hsome
      rw [hhmono ch hsh hhsh]
      rfl
  · intro i n l' r' h' hn hl' hr' hh'
    by_cases hic : i = c
    · subst hic
      rw [hget_self] at hn
      injection hn with hn
      subst hn
      have hl'2 : cn.left = some l' := hl'
      have hr'2 : cn.right = some r' := hr'
      have hh'2 : some H = some h' := hh'
      rw [hl] at hl'2
      rw [hr] at hr'2
      injection hl'2 with hl'2
      injection hr'2 with hr'2
      injection hh'2 with hh'2
      subst hl'2
      subst hr'2
      refine ⟨lh, rh, ?_, ?_, by rw [← hh'2]⟩
      · rw [hhash_ne l (by omega)]
        exact hlh
      · rw [hhash_ne r (by omega)]
        exact hrh
    · rw [hget_ne i hic] at hn
      obtain ⟨lh', rh', hlh', hrh', heq⟩ := hwf.internal_eq i n l' r' h' hn hl' hr' hh'
      exact ⟨lh', rh', hhmono l' lh' hlh', hhmono r' rh' hrh', heq⟩
  · intro c' hc'
    rw [hcur'] at hc'
    have hplt : c' < c := hwf.parent_lt c cn c' hcn hc'
    rw [hhash_ne c' (by omega)]
    obtain ⟨pn, hpn, hlr⟩ := hwf.parent_child c cn c' hcn hc'
    have hpnone := hashed_parent_none hs st hwf c' c pn cn hpn hcn hlr hchn
    rw [hashAt_of_get st c' pn hpn, hpnone]
  · intro i n hn hln hrn hhn
    exfalso
    by_cases hic : i = c
    · subst hic
      rw [hget_self] at hn
      injection hn with hn
      subst hn
      have hln2 : cn.left = none := hln
      rw [hl] at hln2
      cases hln2
    · rw [hget_ne i hic] at hn
      obtain ⟨hcur, _⟩ := hwf.fresh_last i n hn hln hrn hhn
      rw [hc] at hcur
      injection hcur with he
      exact hic he.symm
  · rw [hhx', hns']
    rw [← hwf.leaves_pref]
    unfold leafHashes updateNode
    simp only [hcn]
    refine filterMap_set_congr leafEntry st.binTree c cn _ hcn ?_
    simp [leafEntry, hl]
  · rw [hvb', hlen']
    have hfresh_old : isFresh st = false := by
      unfold isFresh
      simp only [hc, hcn, hl]
      rfl
    have hfresh_new : isFresh (foldStep st c l r cn) = false := by
      unfold isFresh
      rw [hcur']
      cases hp : cn.parent with
      | none => rfl
      | some p =>
        have hplt := hwf.parent_lt c cn p hcn hp
        obtain ⟨pn, hpn, hlr⟩ := hwf.parent_child c cn p hcn hp
        obtain ⟨l0, hl0⟩ := parent_has_left hs st hwf p c pn hpn hlr
        simp only
        rw [hget_ne p (by omega)]
        simp only [hpn, hl0]
        rfl
    rw [hfresh_new]
    have hce := hwf.count_eq
    rw [hfresh_old] at hce
    simpa using hce

theorem wf_leafAssign (hs : List (List Nat)) (st : MBState) (c2 : Nat)
    (cn2 : MerkleNode) (b : Bool) (ht : Int) (hsh : List Nat)
    (hwf : Wf hs st) (hc : st.current = some c2)
    (hcn : st.binTree[c2]? = some cn2) (hln : cn2.left = none)
    (hrn : cn2.right = none) (hhsh : hs[st.hashesIndex]? = some hsh) :
    Wf hs (leafAssign st c2 b ht hsh) := by
  have hcC : c2 < st.binTree.length := hwf.cur_lt c2 hc
  have hchn : cn2.hash = none := by
    have h0 := hwf.cur_hash_none c2 hc
    rwa [hashAt_of_get st c2 cn2 hcn] at h0
  have hlast : c2 + 1 = st.binTree.length :=
    (hwf.fresh_last c2 cn2 hcn hln hrn hchn).2
  have hns' : (leafAssign st c2 b ht hsh).binTree =
      updateNode st.binTree c2 (fun n => { n with hash := some hsh }) := rfl
  have hget_self : (leafAssign st c2 b ht hsh).binTree[c2]? =
      some { cn2 with hash := some hsh } := by
    rw [hns']
    exact updateNode_get_self st.binTree c2 _ cn2 hcn
  have hget_ne : ∀ j, j ≠ c2 →
      (leafAssign st c2 b ht hsh).binTree[j]? = st.binTree[j]? := by
    intro j hj
    rw [hns']
    exact updateNode_get_ne st.binTree c2 _ j (fun he => hj he.symm)
  have hcur' : (leafAssign st c2 b ht hsh).current = cn2.parent := by
    show ((updateNode st.binTree c2
      (fun n => { n with hash := some hsh }))[c2]?.bind MerkleNode.parent) = cn2.parent
    rw [updateNode_get_self st.binTree c2 _ cn2 hcn]
    rfl
  have hvb' : (leafAssign st c2 b ht hsh).vbitsIndex = st.vbitsIndex + 1 := rfl
  have hhx' : (leafAssign st c2 b ht hsh).hashesIndex = st.hashesIndex + 1 := rfl
  have hlen' : (leafAssign st c2 b ht hsh).binTree.length = st.binTree.length := by
    rw [hns', updateNode_length]
  have hparents : ∀ j : Nat,
      (leafAssign st c2 b ht hsh).binTree[j]?.bind MerkleNode.parent
      = st.binTree[j]?.bind MerkleNode.parent := by
    intro j
    by_cases hj : j = c2
    · subst hj
      rw [hget_self, hcn]
      rfl
    · rw [hget_ne j hj]
  have hhash_ne : ∀ j, j ≠ c2 →
      hashAt (leafAssign st c2 b ht hsh) j = hashAt st j := by
    intro j hj
    rw [hashAt, hashAt, hget_ne j hj]
  have hhash_c : hashAt (leafAssign st c2 b ht hsh) c2 = some hsh := by
    rw [hashAt, hget_self]
    rfl
  have hhmono : ∀ j h0, hashAt st j = some h0 →
      hashAt (leafAssign st c2 b ht hsh) j = some h0 := by
    intro j h0 hj
    by_cases hjc : j = c2
    · subst hjc
      rw [hashAt_of_get st j cn2 hcn, hchn] at hj
      cases hj
    · rw [hhash_ne j hjc]
      exact hj
  have hparc : st.binTree[c2]?.bind MerkleNode.parent = cn2.parent := by
    rw [hcn]; rfl
  have hpath_old : pathOf st = c2 :: (match cn2.parent with
      | none => [] | some p => ancestors st.binTree p p) := by
    unfold pathOf
    simp only [hc]
    rw [ancestors_cons st.binTree hwf.parent_lt c2, hparc]
  have hpath_new : pathOf (leafAssign st c2 b ht hsh) = (match cn2.parent with
      | none => [] | some p => ancestors st.binTree p p) := by
    unfold pathOf
    rw [hcur']
    cases hp : cn2.parent with
    | none => rfl
    | some p =>
      simp only
      exact (ancestors_congr st.binTree (leafAssign st c2 b ht hsh).binTree
        hwf.parent_lt p p (fun j _ => (hparents j).symm)).symm
  constructor
  · intro c' hc'
    rw [hcur'] at hc'
    have hlt := hwf.parent_lt c2 cn2 c' hcn hc'
    rw [hlen']
    omega
  · intro i n p hn hp
    by_cases hic : i = c2
    · subst hic
      rw [hget_self] at hn
      injection hn with hn
      subst hn
      exact hwf.parent_lt i cn2 p hcn hp
    · rw [hget_ne i hic] at hn
      exact hwf.parent_lt i n p hn hp
  · intro i n l' hn hl'
    rw [hlen']
    by_cases hic : i = c2
    · subst hic
      rw [hget_self] at hn
      injection hn with hn
      subst hn
      exact hwf.left_range i cn2 l' hcn hl'
    · rw [hget_ne i hic] at hn
      exact hwf.left_range i n l' hn hl'
  · intro i n r' hn hr'
    rw [hlen']
    by_cases hic : i = c2
    · subst hic
      rw [hget_self] at hn
      injection hn with hn
      subst hn
      exact hwf.right_range i cn2 r' hcn hr'
    · rw [hget_ne i hic] at hn
      exact hwf.right_range i n r' hn hr'
  · intro i n p hn hp
    by_cases hic : i = c2
    · subst hic
      rw [hget_self] at hn
      injection hn with hn
      subst hn
      have hp2 : cn2.parent = some p := hp
      have hplt : p < i := hwf.parent_lt i cn2 p hcn hp2
      obtain ⟨pn, hpn, hlr⟩ := hwf.parent_child i cn2 p hcn hp2
      refine ⟨pn, ?_, hlr⟩
      rw [hget_ne p (by omega)]
      exact hpn
    · rw [hget_ne i hic] at hn
      obtain ⟨pn, hpn, hlr⟩ := hwf.parent_child i n p hn hp
      by_cases hpq : p = c2
      · subst hpq
        rw [hcn] at hpn
        injection hpn with hpn
        subst hpn
        refine ⟨{ cn2 with hash := some hsh }, hget_self, ?_⟩
        exact hlr
      · exact ⟨pn, by rw [hget_ne p hpq]; exact hpn, hlr⟩
  · intro i n hn hln'
    by_cases hic : i = c2
    · subst hic
      rw [hget_self] at hn
      injection hn with hn
      subst hn
      exact hrn
    · rw [hget_ne i hic] at hn
      exact hwf.no_right_only i n hn hln'
  · intro i n hn _
    by_cases hic : i = c2
    · subst hic
      rw [hget_self] at hn
      injection hn with hn
      subst hn
      right
      exact ⟨hln, hrn⟩
    · rw [hget_ne i hic] at hn
      exact hwf.hash_shape i n hn (by assumption)
  · intro i n ch hn hch
    have hold : ∃ nOld, st.binTree[i]? = some nOld ∧
        (nOld.left = some ch ∨ nOld.right = some ch) := by
      by_cases hic : i = c2
      · subst hic
        rw [hget_self] at hn
        injection hn with hn
        subst hn
        exact ⟨cn2, hcn, hch⟩
      · rw [hget_ne i hic] at hn
        exact ⟨n, hn, hch⟩
    obtain ⟨nOld, hnOld, hchOld⟩ := hold
    rcases hwf.child_done i nOld ch hnOld hchOld with hmem | hsome
    · rw [hpath_old] at hmem
      rcases List.mem_cons.mp hmem with he | he
      · subst he
        right
        rw [hhash_c]
        rfl
      · left
        rw [hpath_new]
        exact he
    · right
      obtain ⟨h0, hh0⟩ := Option.isSome_iff_exists.mp hsome
      rw [hhmono ch h0 hh0]
      rfl
  · intro i n l' r' h' hn hl' hr' hh'
    by_cases hic : i = c2
    · subst hic
      rw [hget_self] at hn
      injection hn with hn
      subst hn
      have hl'2 : cn2.left = some l' := hl'
      rw [hln] at hl'2
      cases hl'2
    · rw [hget_ne i hic] at hn
      obtain ⟨lh', rh', hlh', hrh', heq⟩ := hwf.internal_eq i n l' r' h' hn hl' hr' hh'
      exact ⟨lh', rh', hhmono l' lh' hlh', hhmono r' rh' hrh', heq⟩
  · intro c' hc'
    rw [hcur'] at hc'
    have hplt : c' < c2 := hwf.parent_lt c2 cn2 c' hcn hc'
    rw [hhash_ne c' (by omega)]
    obtain ⟨pn, hpn, hlr⟩ := hwf.parent_child c2 cn2 c' hcn hc'
    have hpnone := hashed_parent_none hs st hwf c' c2 pn cn2 hpn hcn hlr hchn
    rw [hashAt_of_get st c' pn hpn, hpnone]
  · intro i n hn hln' hrn' hhn
    exfalso
    by_cases hic : i = c2
    · subst hic
      rw [hget_self] at hn
      injection hn with hn
      subst hn
      have hhn2 : (some hsh : Option (List Nat)) = none := hhn
      cases hhn2
    · rw [hget_ne i hic] at hn
      obtain ⟨hcur, _⟩ := hwf.fresh_last i n hn hln' hrn' hhn
      rw [hc] at hcur
      injection hcur with he
      exact hic he.symm
  · rw [hhx', hns']
    have htklen : (st.binTree.take c2).length = c2 := by
      rw [List.length_take]
      omega
    have hdecomp : st.binTree = st.binTree.take c2 ++ [cn2] := by
      have hlt : c2 < st.binTree.length := by omega
      have hgele : st.binTree[c2] = cn2 := by
        obtain ⟨h1, h2⟩ := List.getElem?_eq_some.mp hcn
        exact h2
      conv_lhs => rw [← List.take_append_drop c2 st.binTree]
      rw [List.drop_eq_getElem_cons hlt, List.drop_eq_nil_of_le (by omega), hgele]
    have hupd : updateNode st.binTree c2 (fun n => { n with hash := some hsh }) =
        st.binTree.take c2 ++ [{ cn2 with hash := some hsh }] := by
      unfold updateNode
      simp only [hcn]
      conv_lhs => rw [hdecomp]
      rw [List.set_append_right _ _ (by rw [htklen]), htklen]
      simp
    rw [hupd]
    unfold leafHashes
    rw [List.filterMap_append]
    have hbase := hwf.leaves_pref
    unfold leafHashes at hbase
    conv_lhs at hbase => rw [hdecomp]
    rw [List.filterMap_append] at hbase
    have hentry_old : List.filterMap leafEntry [cn2] = [] := by
      simp [leafEntry, hln, hrn, hchn]
    have hentry_new : List.filterMap leafEntry [{ cn2 with hash := some hsh }] =
        [hsh] := by
      simp [leafEntry, hln, hrn]
    rw [hentry_old, List.append_nil] at hbase
    rw [hentry_new, hbase, List.take_succ, hhsh]
    rfl
  · rw [hvb', hlen']
    have hfresh_old : isFresh st = true := by
      unfold isFresh
      simp only [hc, hcn, hln, hrn, hchn]
      rfl
    have hfresh_new : isFresh (leafAssign st c2 b ht hsh) = false := by
      unfold isFresh
      rw [hcur']
      cases hp : cn2.parent with
      | none => rfl
      | some p =>
        have hplt := hwf.parent_lt c2 cn2 p hcn hp
        obtain ⟨pn, hpn, hlr⟩ := hwf.parent_child c2 cn2 p hcn hp
        obtain ⟨l0, hl0⟩ := parent_has_left hs st hwf p c2 pn hpn hlr
        simp only
        rw [hget_ne p (by omega)]
        simp only [hpn, hl0]
        rfl
    rw [hfresh_new]
    have hce := hwf.count_eq
    rw [hfresh_old, if_pos rfl] at hce
    rw [if_neg (by simp)]
    omega

theorem wf_leftCreate (hs : List (List Nat)) (st : MBState) (c2 : Nat)
    (cn2 : MerkleNode) (hwf : Wf hs st) (hc : st.current = some c2)
    (hcn : st.binTree[c2]? = some cn2) (hln : cn2.left = none)
    (hrn : cn2.right = none) : Wf hs (leftCreate st c2) := by
  have hcC : c2 < st.binTree.length := hwf.cur_lt c2 hc
  have hchn : cn2.hash = none := by
    have h0 := hwf.cur_hash_none c2 hc
    rwa [hashAt_of_get st c2 cn2 hcn] at h0
  set L := st.binTree.length with hL
  have hns' : (leftCreate st c2).binTree =
      (updateNode st.binTree c2 (fun n => { n with left := some L })) ++
        [⟨some c2, none, none, none⟩] := rfl
  have hulen : (updateNode st.binTree c2
      (fun n => { n with left := some L })).length = L := by
    rw [updateNode_length]
  have hlen' : (leftCreate st c2).binTree.length = L + 1 := by
    rw [hns', List.length_append, hulen]
    rfl
  have hget_c2 : (leftCreate st c2).binTree[c2]? =
      some { cn2 with left := some L } := by
    rw [hns', get_append_lt _ _ _ (by rw [hulen]; omega)]
    exact updateNode_get_self st.binTree c2 _ cn2 hcn
  have hget_new : (leftCreate st c2).binTree[L]? =
      some ⟨some c2, none, none, none⟩ := by
    rw [hns']
    have := get_append_self (updateNode st.binTree c2
      (fun n => { n with left := some L })) ⟨some c2, none, none, none⟩
    rwa [hulen] at this
  have hget_ne : ∀ j, j ≠ c2 → j < L → (leftCreate st c2).binTree[j]? =
      st.binTree[j]? := by
    intro j hj hjL
    rw [hns', get_append_lt _ _ _ (by rw [hulen]; omega)]
    exact updateNode_get_ne st.binTree c2 _ j (fun he => hj he.symm)
  have hget_big : ∀ j, L + 1 ≤ j → (leftCreate st c2).binTree[j]? = none := by
    intro j hjL
    apply List.getElem?_eq_none
    rw [hlen']
    omega
  have hget_old : ∀ (j : Nat) (n : MerkleNode), st.binTree[j]? = some n → j < L := by
    intro j n hn
    exact (List.getElem?_eq_some.mp hn).1
  have hpar' : ∀ (i : Nat) (n : MerkleNode) (p : Nat),
      (leftCreate st c2).binTree[i]? = some n → n.parent = some p → p < i := by
    intro i n p hn hp
    by_cases hiL : i = L
    · subst hiL
      rw [hget_new] at hn
      injection hn with hn
      subst hn
      have hp2 : (some c2 : Option Nat) = some p := hp
      injection hp2 with hp2
      omega
    · by_cases hiB : L + 1 ≤ i
      · rw [hget_big i hiB] at hn
        cases hn
      · by_cases hic : i = c2
        · subst hic
          rw [hget_c2] at hn
          injection hn with hn
          subst hn
          exact hwf.parent_lt i cn2 p hcn hp
        · rw [hget_ne i hic (by omega)] at hn
          exact hwf.parent_lt i n p hn hp
  have hhash_lt : ∀ j, j < L → hashAt (leftCreate st c2) j = hashAt st j := by
    intro j hjL
    by_cases hjc : j = c2
    · subst hjc
      rw [hashAt, hget_c2, hashAt, hcn]
      rfl
    · rw [hashAt, hashAt, hget_ne j hjc hjL]
  have hhash_new : hashAt (leftCreate st c2) L = none := by
    rw [hashAt, hget_new]
    rfl
  have hparents_le : ∀ j : Nat, j ≤ c2 →
      (leftCreate st c2).binTree[j]?.bind MerkleNode.parent
      = st.binTree[j]?.bind MerkleNode.parent := by
    intro j hj
    by_cases hjc : j = c2
    · subst hjc
      rw [hget_c2, hcn]
      rfl
    · rw [hget_ne j hjc (by omega)]
  have hpath_old : pathOf st = ancestors st.binTree c2 c2 := by
    unfold pathOf
    simp only [hc]
  have hpath_new : pathOf (leftCreate st c2) = L :: pathOf st := by
    unfold pathOf
    show ancestors (leftCreate st c2).binTree L L = _
    rw [ancestors_cons (leftCreate st c2).binTree hpar' L]
    have hpL : (leftCreate st c2).binTree[L]?.bind MerkleNode.parent = some c2 := by
      rw [hget_new]
      rfl
    rw [hpL]
    simp only [hc]
    rw [← ancestors_congr st.binTree (leftCreate st c2).binTree hwf.parent_lt c2 c2
      (fun j hj => (hparents_le j hj).symm)]
  constructor
  · intro c' hc'
    have hc'2 : (some L : Option Nat) = some c' := hc'
    injection hc'2 with hc'2
    rw [hlen']
    omega
  · exact hpar'
  · intro i n l' hn hl'
    rw [hlen']
    by_cases hiL : i = L
    · subst hiL
      rw [hget_new] at hn
      injection hn with hn
      subst hn
      cases hl'
    · by_cases hiB : L + 1 ≤ i
      · rw [hget_big i hiB] at hn
        cases hn
      · by_cases hic : i = c2
        · subst hic
          rw [hget_c2] at hn
          injection hn with hn
          subst hn
          have hl'2 : (some L : Option Nat) = some l' := hl'
          injection hl'2 with hl'2
          omega
        · rw [hget_ne i hic (by omega)] at hn
          have := hwf.left_range i n l' hn hl'
          omega
  · intro i n r' hn hr'
    rw [hlen']
    by_cases hiL : i = L
    · subst hiL
      rw [hget_new] at hn
      injection hn with hn
      subst hn
      cases hr'
    · by_cases hiB : L + 1 ≤ i
      · rw [hget_big i hiB] at hn
        cases hn
      · by_cases hic : i = c2
        · subst hic
          rw [hget_c2] at hn
          injection hn with hn
          subst hn
          have hr'2 : cn2.right = some r' := hr'
          rw [hrn] at hr'2
          cases hr'2
        · rw [hget_ne i hic (by omega)] at hn
          have := hwf.right_range i n r' hn hr'
          omega
  · intro i n p hn hp
    by_cases hiL : i = L
    · subst hiL
      rw [hget_new] at hn
      injection hn with hn
      subst hn
      have hp2 : (some c2 : Option Nat) = some p := hp
      injection hp2 with hp2
      subst hp2
      refine ⟨{ cn2 with left := some L }, hget_c2, Or.inl ?_⟩
      rfl
    · by_cases hiB : L + 1 ≤ i
      · rw [hget_big i hiB] at hn
        cases hn
      · have hilt : i < L := by omega
        have hold : ∃ nOld, st.binTree[i]? = some nOld ∧ nOld.parent = some p := by
          by_cases hic : i = c2
          · subst hic
            rw [hget_c2] at hn
            injection hn with hn
            subst hn
            exact ⟨cn2, hcn, hp⟩
          · rw [hget_ne i hic hilt] at hn
            exact ⟨n, hn, hp⟩
        obtain ⟨nOld, hnOld, hpOld⟩ := hold
        obtain ⟨pn, hpn, hlr⟩ := hwf.parent_child i nOld p hnOld hpOld
        have hpL : p < L := hget_old p pn hpn
        by_cases hpc : p = c2
        · subst hpc
          rw [hcn] at hpn
          injection hpn with hpn
          subst hpn
          rcases hlr with h | h
          · rw [hln] at h; cases h
          · rw [hrn] at h; cases h
        · exact ⟨pn, by rw [hget_ne p hpc hpL]; exact hpn, hlr⟩
  · intro i n hn hln'
    by_cases hiL : i = L
    · subst hiL
      rw [hget_new] at hn
      injection hn with hn
      subst hn
      rfl
    · by_cases hiB : L + 1 ≤ i
      · rw [hget_big i hiB] at hn
        cases hn
      · by_cases hic : i = c2
        · subst hic
          rw [hget_c2] at hn
          injection hn with hn
          subst hn
          have : (some L : Option Nat) = none := hln'
          cases this
        · rw [hget_ne i hic (by omega)] at hn
          exact hwf.no_right_only i n hn hln'
  · intro i n hn hh
    by_cases hiL : i = L
    · subst hiL
      rw [hget_new] at hn
      injection hn with hn
      subst hn
      cases hh
    · by_cases hiB : L + 1 ≤ i
      · rw [hget_big i hiB] at hn
        cases hn
      · by_cases hic : i = c2
        · subst hic
          rw [hget_c2] at hn
          injection hn with hn
          subst hn
          have hh2 : cn2.hash.isSome := hh
          rw [hchn] at hh2
          cases hh2
        · rw [hget_ne i hic (by omega)] at hn
          exact hwf.hash_shape i n hn hh
  · intro i n ch hn hch
    by_cases hiL : i = L
    · subst hiL
      rw [hget_new] at hn
      injection hn with hn
      subst hn
      rcases hch with h | h <;> cases h
    · by_cases hiB : L + 1 ≤ i
      · rw [hget_big i hiB] at hn
        cases hn
      · by_cases hic : i = c2
        · subst hic
          rw [hget_c2] at hn
          injection hn with hn
          subst hn
          rcases hch with h | h
          · have h2 : (some L : Option Nat) = some ch := h
            injection h2 with h2
            subst h2
            left
            rw [hpath_new]
            exact List.mem_cons_self _ _
          · have h2 : cn2.right = some ch := h
            rw [hrn] at h2
            cases h2
        · rw [hget_ne i hic (by omega)] at hn
          rcases hwf.child_done i n ch hn hch with hmem | hsome
          · left
            rw [hpath_new]
            exact List.mem_cons_of_mem _ hmem
          · right
            obtain ⟨h0, hh0⟩ := Option.isSome_iff_exists.mp hsome
            have hchL : ch < L := by
              rcases hch with h | h
              · exact (hwf.left_range i n ch hn h).2
              · exact (hwf.right_range i n ch hn h).2
            rw [hhash_lt ch hchL, hh0]
            rfl
  · intro i n l' r' h' hn hl' hr' hh'
    by_cases hiL : i = L
    · subst hiL
      rw [hget_new] at hn
      injection hn with hn
      subst hn
      cases hh'
    · by_cases hiB : L + 1 ≤ i
      · rw [hget_big i hiB] at hn
        cases hn
      · by_cases hic : i = c2
        · subst hic
          rw [hget_c2] at hn
          injection hn with hn
          subst hn
          have hh'2 : cn2.hash = some h' := hh'
          rw [hchn] at hh'2
          cases hh'2
        · rw [hget_ne i hic (by omega)] at hn
          obtain ⟨lh', rh', hlh', hrh', heq⟩ :=
            hwf.internal_eq i n l' r' h' hn hl' hr' hh'
          have hlL : l' < L := (hwf.left_range i n l' hn hl').2
          have hrL : r' < L := (hwf.right_range i n r' hn hr').2
          exact ⟨lh', rh', by rw [hhash_lt l' hlL]; exact hlh',
            by rw [hhash_lt r' hrL]; exact hrh', heq⟩
  · intro c' hc'
    have hc'2 : (some L : Option Nat) = some c' := hc'
    injection hc'2 with hc'2
    subst hc'2
    exact hhash_new
  · intro i n hn hln' hrn' hhn
    by_cases hiL : i = L
    · subst hiL
      constructor
      · rfl
      · rw [hlen']
    · exfalso
      by_cases hiB : L + 1 ≤ i
      · rw [hget_big i hiB] at hn
        cases hn
      · by_cases hic : i = c2
        · subst hic
          rw [hget_c2] at hn
          injection hn with hn
          subst hn
          have : (some L : Option Nat) = none := hln'
          cases this
        · rw [hget_ne i hic (by omega)] at hn
          obtain ⟨hcur, _⟩ := hwf.fresh_last i n hn hln' hrn' hhn
          rw [hc] at hcur
          injection hcur with he
          exact hic he.symm
  · show leafHashes ((updateNode st.binTree c2
        (fun n => { n with left := some L })) ++ [⟨some c2, none, none, none⟩])
      = hs.take st.hashesIndex
    unfold leafHashes
    rw [List.filterMap_append]
    have h1 : List.filterMap leafEntry [(⟨some c2, none, none, none⟩ : MerkleNode)]
        = [] := by
      simp [leafEntry]
    have h2 : List.filterMap leafEntry (updateNode st.binTree c2
        (fun n => { n with left := some L })) = leafHashes st.binTree := by
      unfold leafHashes updateNode
      simp only [hcn]
      refine filterMap_set_congr leafEntry st.binTree c2 cn2 _ hcn ?_
      simp [leafEntry, hln, hrn, hchn]
    rw [h1, h2, List.append_nil]
    exact hwf.leaves_pref
  · have hfresh_old : isFresh st = true := by
      unfold isFresh
      simp only [hc, hcn, hln, hrn, hchn]
      rfl
    have hfresh_new : isFresh (leftCreate st c2) = true := by
      unfold isFresh
      show (match (leftCreate st c2).binTree[L]? with
        | none => false
        | some n => n.left.isNone && n.right.isNone && n.hash.isNone) = true
      rw [hget_new]
      rfl
    have hce := hwf.count_eq
    rw [hfresh_old, if_pos rfl] at hce
    rw [hfresh_new, if_pos rfl, hlen']
    show st.vbitsIndex + 1 + 1 = L + 1
    omega

theorem wf_rightCreate (hs : List (List Nat)) (st : MBState) (c l : Nat)
    (cn : MerkleNode) (hwf : Wf hs st) (hc : st.current = some c)
    (hcn : st.binTree[c]? = some cn) (hl : cn.left = some l)
    (hrn : cn.right = none) : Wf hs (rightCreate st c) := by
  have hcC : c < st.binTree.length := hwf.cur_lt c hc
  have hchn : cn.hash = none := by
    have h0 := hwf.cur_hash_none c hc
    rwa [hashAt_of_get st c cn hcn] at h0
  set L := st.binTree.length with hL
  have hns' : (rightCreate st c).binTree =
      (updateNode st.binTree c (fun n => { n with right := some L })) ++
        [⟨some c, none, none, none⟩] := rfl
  have hulen : (updateNode st.binTree c
      (fun n => { n with right := some L })).length = L := by
    rw [updateNode_length]
  have hlen' : (rightCreate st c).binTree.length = L + 1 := by
    rw [hns', List.length_append, hulen]
    rfl
  have hget_c : (rightCreate st c).binTree[c]? =
      some { cn with right := some L } := by
    rw [hns', get_append_lt _ _ _ (by rw [hulen]; omega)]
    exact updateNode_get_self st.binTree c _ cn hcn
  have hget_new : (rightCreate st c).binTree[L]? =
      some ⟨some c, none, none, none⟩ := by
    rw [hns']
    have := get_append_self (updateNode st.binTree c
      (fun n => { n with right := some L })) ⟨some c, none, none, none⟩
    rwa [hulen] at this
  have hget_ne : ∀ j, j ≠ c → j < L → (rightCreate st c).binTree[j]? =
      st.binTree[j]? := by
    intro j hj hjL
    rw [hns', get_append_lt _ _ _ (by rw [hulen]; omega)]
    exact updateNode_get_ne st.binTree c _ j (fun he => hj he.symm)
  have hget_big : ∀ j, L + 1 ≤ j → (rightCreate st c).binTree[j]? = none := by
    intro j hjL
    apply List.getElem?_eq_none
    rw [hlen']
    omega
  have hget_old : ∀ (j : Nat) (n : MerkleNode), st.binTree[j]? = some n → j < L := by
    intro j n hn
    exact (List.getElem?_eq_some.mp hn).1
  have hpar' : ∀ (i : Nat) (n : MerkleNode) (p : Nat),
      (rightCreate st c).binTree[i]? = some n → n.parent = some p → p < i := by
    intro i n p hn hp
    by_cases hiL : i = L
    · subst hiL
      rw [hget_new] at hn
      injection hn with hn
      subst hn
      have hp2 : (some c : Option Nat) = some p := hp
      injection hp2 with hp2
      omega
    · by_cases hiB : L + 1 ≤ i
      · rw [hget_big i hiB] at hn
        cases hn
      · by_cases hic : i = c
        · subst hic
          rw [hget_c] at hn
          injection hn with hn
          subst hn
          exact hwf.parent_lt i cn p hcn hp
        · rw [hget_ne i hic (by omega)] at hn
          exact hwf.parent_lt i n p hn hp
  have hhash_lt : ∀ j, j < L → hashAt (rightCreate st c) j = hashAt st j := by
    intro j hjL
    by_cases hjc : j = c
    · subst hjc
      rw [hashAt, hget_c, hashAt, hcn]
      rfl
    · rw [hashAt, hashAt, hget_ne j hjc hjL]
  have hhash_new : hashAt (rightCreate st c) L = none := by
    rw [hashAt, hget_new]
    rfl
  have hparents_le : ∀ j : Nat, j ≤ c →
      (rightCreate st c).binTree[j]?.bind MerkleNode.parent
      = st.binTree[j]?.bind MerkleNode.parent := by
    intro j hj
    by_cases hjc : j = c
    · subst hjc
      rw [hget_c, hcn]
      rfl
    · rw [hget_ne j hjc (by omega)]
  have hpath_old : pathOf st = ancestors st.binTree c c := by
    unfold pathOf
    simp only [hc]
  have hpath_new : pathOf (rightCreate st c) = L :: pathOf st := by
    unfold pathOf
    show ancestors (rightCreate st c).binTree L L = _
    rw [ancestors_cons (rightCreate st c).binTree hpar' L]
    have hpL : (rightCreate st c).binTree[L]?.bind MerkleNode.parent = some c := by
      rw [hget_new]
      rfl
    rw [hpL]
    simp only [hc]
    rw [← ancestors_congr st.binTree (rightCreate st c).binTree hwf.parent_lt c c
      (fun j hj => (hparents_le j hj).symm)]
  constructor
  · intro c' hc'
    have hc'2 : (some L : Option Nat) = some c' := hc'
    injection hc'2 with hc'2
    rw [hlen']
    omega
  · exact hpar'
  · intro i n l' hn hl'
    rw [hlen']
    by_cases hiL : i = L
    · subst hiL
      rw [hget_new] at hn
      injection hn with hn
      subst hn
      cases hl'
    · by_cases hiB : L + 1 ≤ i
      · rw [hget_big i hiB] at hn
        cases hn
      · by_cases hic : i = c
        · subst hic
          rw [hget_c] at hn
          injection hn with hn
          subst hn
          have hl'2 : cn.left = some l' := hl'
          have := hwf.left_range i cn l' hcn hl'2
          omega
        · rw [hget_ne i hic (by omega)] at hn
          have := hwf.left_range i n l' hn hl'
          omega
  · intro i n r' hn hr'
    rw [hlen']
    by_cases hiL : i = L
    · subst hiL
      rw [hget_new] at hn
      injection hn with hn
      subst hn
      cases hr'
    · by_cases hiB : L + 1 ≤ i
      · rw [hget_big i hiB] at hn
        cases hn
      · by_cases hic : i = c
        · subst hic
          rw [hget_c] at hn
          injection hn with hn
          subst hn
          have hr'2 : (some L : Option Nat) = some r' := hr'
          injection hr'2 with hr'2
          omega
        · rw [hget_ne i hic (by omega)] at hn
          have := hwf.right_range i n r' hn hr'
          omega
  · intro i n p hn hp
    by_cases hiL : i = L
    · subst hiL
      rw [hget_new] at hn
      injection hn with hn
      subst hn
      have hp2 : (some c : Option Nat) = some p := hp
      injection hp2 with hp2
      subst hp2
      refine ⟨{ cn with right := some L }, hget_c, Or.inr ?_⟩
      rfl
    · by_cases hiB : L + 1 ≤ i
      · rw [hget_big i hiB] at hn
        cases hn
      · have hilt : i < L := by omega
        have hold : ∃ nOld, st.binTree[i]? = some nOld ∧ nOld.parent = some p := by
          by_cases hic : i = c
          · subst hic
            rw [hget_c] at hn
            injection hn with hn
            subst hn
            exact ⟨cn, hcn, hp⟩
          · rw [hget_ne i hic hilt] at hn
            exact ⟨n, hn, hp⟩
        obtain ⟨nOld, hnOld, hpOld⟩ := hold
        obtain ⟨pn, hpn, hlr⟩ := hwf.parent_child i nOld p hnOld hpOld
        have hpL : p < L := hget_old p pn hpn
        by_cases hpc : p = c
        · subst hpc
          rw [hcn] at hpn
          injection hpn with hpn
          subst hpn
          rcases hlr with h | h
          · exact ⟨{ cn with right := some L }, hget_c, Or.inl h⟩
          · rw [hrn] at h
            cases h
        · exact ⟨pn, by rw [hget_ne p hpc hpL]; exact hpn, hlr⟩
  · intro i n hn hln'
    by_cases hiL : i = L
    · subst hiL
      rw [hget_new] at hn
      injection hn with hn
      subst hn
      rfl
    · by_cases hiB : L + 1 ≤ i
      · rw [hget_big i hiB] at hn
        cases hn
      · by_cases hic : i = c
        · subst hic
          rw [hget_c] at hn
          injection hn with hn
          subst hn
          have hln'2 : cn.left = none := hln'
          rw [hl] at hln'2
          cases hln'2
        · rw [hget_ne i hic (by omega)] at hn
          exact hwf.no_right_only i n hn hln'
  · intro i n hn hh
    by_cases hiL : i = L
    · subst hiL
      rw [hget_new] at hn
      injection hn with hn
      subst hn
      cases hh
    · by_cases hiB : L + 1 ≤ i
      · rw [hget_big i hiB] at hn
        cases hn
      · by_cases hic : i = c
        · subst hic
          rw [hget_c] at hn
          injection hn with hn
          subst hn
          have hh2 : cn.hash.isSome := hh
          rw [hchn] at hh2
          cases hh2
        · rw [hget_ne i hic (by omega)] at hn
          exact hwf.hash_shape i n hn hh
  · intro i n ch hn hch
    by_cases hiL : i = L
    · subst hiL
      rw [hget_new] at hn
      injection hn with hn
      subst hn
      rcases hch with h | h <;> cases h
    · by_cases hiB : L + 1 ≤ i
      · rw [hget_big i hiB] at hn
        cases hn
      · by_cases hic : i = c
        · subst hic
          rw [hget_c] at hn
          injection hn with hn
          subst hn
          rcases hch with h | h
          · have h2 : cn.left = some ch := h
            rcases hwf.child_done i cn ch hcn (Or.inl h2) with hmem | hsome
            · left
              rw [hpath_new]
              exact List.mem_cons_of_mem _ hmem
            · right
              obtain ⟨h0, hh0⟩ := Option.isSome_iff_exists.mp hsome
              have hchL : ch < L := (hwf.left_range i cn ch hcn h2).2
              rw [hhash_lt ch hchL, hh0]
              rfl
          · have h2 : (some L : Option Nat) = some ch := h
            injection h2 with h2
            subst h2
            left
            rw [hpath_new]
            exact List.mem_cons_self _ _
        · rw [hget_ne i hic (by omega)] at hn
          rcases hwf.child_done i n ch hn hch with hmem | hsome
          · left
            rw [hpath_new]
            exact List.mem_cons_of_mem _ hmem
          · right
            obtain ⟨h0, hh0⟩ := Option.isSome_iff_exists.mp hsome
            have hchL : ch < L := by
              rcases hch with h | h
              · exact (hwf.left_range i n ch hn h).2
              · exact (hwf.right_range i n ch hn h).2
            rw [hhash_lt ch hchL, hh0]
            rfl
  · intro i n l' r' h' hn hl' hr' hh'
    by_cases hiL : i = L
    · subst hiL
      rw [hget_new] at hn
      injection hn with hn
      subst hn
      cases hh'
    · by_cases hiB : L + 1 ≤ i
      · rw [hget_big i hiB] at hn
        cases hn
      · by_cases hic : i = c
        · subst hic
          rw [hget_c] at hn
          injection hn with hn
          subst hn
          have hh'2 : cn.hash = some h' := hh'
          rw [hchn] at hh'2
          cases hh'2
        · rw [hget_ne i hic (by omega)] at hn
          obtain ⟨lh', rh', hlh', hrh', heq⟩ :=
            hwf.internal_eq i n l' r' h' hn hl' hr' hh'
          have hlL : l' < L := (hwf.left_range i n l' hn hl').2
          have hrL : r' < L := (hwf.right_range i n r' hn hr').2
          exact ⟨lh', rh', by rw [hhash_lt l' hlL]; exact hlh',
            by rw [hhash_lt r' hrL]; exact hrh', heq⟩
  · intro c' hc'
    have hc'2 : (some L : Option Nat) = some c' := hc'
    injection hc'2 with hc'2
    subst hc'2
    exact hhash_new
  · intro i n hn hln' hrn' hhn
    by_cases hiL : i = L
    · subst hiL
      constructor
      · rfl
      · rw [hlen']
    · exfalso
      by_cases hiB : L + 1 ≤ i
      · rw [hget_big i hiB] at hn
        cases hn
      · by_cases hic : i = c
        · subst hic
          rw [hget_c] at hn
          injection hn with hn
          subst hn
          have hln'2 : cn.left = none := hln'
          rw [hl] at hln'2
          cases hln'2
        · rw [hget_ne i hic (by omega)] at hn
          obtain ⟨hcur, _⟩ := hwf.fresh_last i n hn hln' hrn' hhn
          rw [hc] at hcur
          injection hcur with he
          exact hic he.symm
  · show leafHashes ((updateNode st.binTree c
        (fun n => { n with right := some L })) ++ [⟨some c, none, none, none⟩])
      = hs.take st.hashesIndex
    unfold leafHashes
    rw [List.filterMap_append]
    have h1 : List.filterMap leafEntry [(⟨some c, none, none, none⟩ : MerkleNode)]
        = [] := by
      simp [leafEntry]
    have h2 : List.filterMap leafEntry (updateNode st.binTree c
        (fun n => { n with right := some L })) = leafHashes st.binTree := by
      unfold leafHashes updateNode
      simp only [hcn]
      refine filterMap_set_congr leafEntry st.binTree c cn _ hcn ?_
      simp [leafEntry, hl]
    rw [h1, h2, List.append_nil]
    exact hwf.leaves_pref
  · have hfresh_old : isFresh st = false := by
      unfold isFresh
      simp only [hc, hcn, hl]
      rfl
    have hfresh_new : isFresh (rightCreate st c) = true := by
      unfold isFresh
      show (match (rightCreate st c).binTree[L]? with
        | none => false
        | some n => n.left.isNone && n.right.isNone && n.hash.isNone) = true
      rw [hget_new]
      rfl
    have hce := hwf.count_eq
    rw [hfresh_old, if_neg (by simp)] at hce
    rw [hfresh_new, if_pos rfl, hlen']
    show st.vbitsIndex + 1 = L + 1
    omega

theorem flagStep_next_inversion (vb : List Bool) (hs : List (List Nat)) (ht : Int)
    (stMid : MBState) (c2 : Nat) (st' : MBState)
    (h : flagStep vb hs ht stMid c2 = .next st') :
    ∃ b, vb[stMid.vbitsIndex]? = some b ∧ st'.vbitsIndex < vb.length ∧
      st'.vbitsIndex = stMid.vbitsIndex + 1 ∧
      ((∃ hsh, hs[stMid.hashesIndex]? = some hsh ∧
        st' = leafAssign stMid c2 b ht hsh) ∨
       st' = leftCreate stMid c2) := by
  unfold flagStep at h
  cases hb : vb[stMid.vbitsIndex]? with
  | none => simp [hb] at h
  | some b =>
    simp only [hb] at h
    refine ⟨b, rfl, ?_⟩
    split at h
    · cases hh : hs[stMid.hashesIndex]? with
      | none => simp [hh] at h
      | some hsh =>
        simp only [hh] at h
        unfold vbitsGuard at h
        split at h
        · cases h
        case isFalse hguard =>
          injection h with h
          subst h
          exact ⟨by omega, rfl, Or.inl ⟨hsh, rfl, rfl⟩⟩
    · unfold vbitsGuard at h
      split at h
      · cases h
      case isFalse hguard =>
        injection h with h
        subst h
        exact ⟨by omega, rfl, Or.inr rfl⟩

theorem rightCreate_get_new (st : MBState) (c : Nat) :
    (rightCreate st c).binTree[st.binTree.length]? =
      some ⟨some c, none, none, none⟩ := by
  show ((updateNode st.binTree c
      (fun n => { n with right := some st.binTree.length })) ++
    [⟨some c, none, none, none⟩])[st.binTree.length]? = _
  have hself := get_append_self (updateNode st.binTree c
    (fun n => { n with right := some st.binTree.length })) ⟨some c, none, none, none⟩
  rwa [updateNode_length] at hself

/-- Every `.next` step from a well-formed state yields a well-formed state. -/
theorem wf_step_next (vb : List Bool) (hs : List (List Nat)) (ht : Int)
    (st st' : MBState) (hwf : Wf hs st) (h : step vb hs ht st = .next st') :
    Wf hs st' := by
  by_cases hlen : st.hashesIndex = hs.length
  · rw [step, if_pos hlen] at h
    cases hc : st.current with
    | none => simp [hc] at h
    | some c =>
      simp only [hc] at h
      cases hcn : st.binTree[c]? with
      | none => simp [hcn] at h
      | some cn =>
        simp only [hcn] at h
        cases hl : cn.left with
        | none => simp [hl] at h
        | some l =>
          cases hr : cn.right with
          | none => simp [hl, hr] at h
          | some r =>
            simp only [hl, hr] at h
            cases hlh : hashAt st l with
            | none => simp [hlh] at h
            | some lh =>
              cases hrh : hashAt st r with
              | none => simp [hlh, hrh] at h
              | some rh => simp [hlh, hrh] at h
  · rw [step, if_neg hlen] at h
    cases hc : st.current with
    | none => simp [hc] at h
    | some c =>
      simp only [hc] at h
      cases hcn : st.binTree[c]? with
      | none => simp [hcn] at h
      | some cn =>
        simp only [hcn] at h
        cases hl : cn.left with
        | none =>
          simp only [hl] at h
          have hrn := hwf.no_right_only c cn hcn hl
          obtain ⟨b, hb, _, _, hcase⟩ := flagStep_next_inversion vb hs ht st c st' h
          rcases hcase with ⟨hsh, hhsh, hst'⟩ | hst'
          · subst hst'
            exact wf_leafAssign hs st c cn b ht hsh hwf hc hcn hl hrn hhsh
          · subst hst'
            exact wf_leftCreate hs st c cn hwf hc hcn hl hrn
        | some l =>
          cases hr : cn.right with
          | none =>
            simp only [hl, hr] at h
            have hwfMid := wf_rightCreate hs st c l cn hwf hc hcn hl hr
            have hcMid : (rightCreate st c).current = some st.binTree.length := rfl
            have hgetMid := rightCreate_get_new st c
            obtain ⟨b, hb, _, _, hcase⟩ := flagStep_next_inversion vb hs ht
              (rightCreate st c) st.binTree.length st' h
            rcases hcase with ⟨hsh, hhsh, hst'⟩ | hst'
            · subst hst'
              exact wf_leafAssign hs (rightCreate st c) st.binTree.length
                ⟨some c, none, none, none⟩ b ht hsh hwfMid hcMid hgetMid rfl rfl hhsh
            · subst hst'
              exact wf_leftCreate hs (rightCreate st c) st.binTree.length
                ⟨some c, none, none, none⟩ hwfMid hcMid hgetMid rfl rfl
          | some r =>
            simp only [hl, hr] at h
            injection h with h
            subst h
            exact wf_fold hs st c l r cn hwf hc hcn hl hr

/-- Well-formedness propagates along any number of `.next` steps. -/
theorem wf_stepsN (vb : List Bool) (hs : List (List Nat)) (ht : Int) :
    ∀ (n : Nat) (st st' : MBState), Wf hs st →
      stepsN vb hs ht n st = some st' → Wf hs st' := by
  intro n
  induction n with
  | zero =>
    intro st st' hwf h
    rw [stepsN] at h
    injection h with h
    rw [← h]
    exact hwf
  | succ n ih =>
    intro st st' hwf h
    rw [stepsN] at h
    cases hstep : step vb hs ht st with
    | next st1 =>
      simp only [hstep] at h
      exact ih st1 st' (wf_step_next vb hs ht st st1 hwf hstep) h
    | ok r st1 => simp [hstep] at h
    | fail e st1 => simp [hstep] at h
    | stuck p => simp [hstep] at h

theorem hash_mono_update (ns : List MerkleNode) (c : Nat)
    (f : MerkleNode → MerkleNode)
    (hnone : ∀ n, ns[c]? = some n → n.hash = none) :
    ∀ (i : Nat) (hh : List Nat), ns[i]?.bind MerkleNode.hash = some hh →
      (updateNode ns c f)[i]?.bind MerkleNode.hash = some hh := by
  intro i hh hi
  by_cases hic : i = c
  · subst hic
    cases hn : ns[i]? with
    | none => rw [hn] at hi; cases hi
    | some n =>
      rw [hn] at hi
      have h0 := hnone n hn
      have h1 : n.hash = some hh := hi
      rw [h0] at h1
      cases h1
  · rw [updateNode_get_ne ns c f i (fun he => hic he.symm)]
    exact hi

theorem hash_mono_append (ns : List MerkleNode) (x : MerkleNode) :
    ∀ (i : Nat) (hh : List Nat), ns[i]?.bind MerkleNode.hash = some hh →
      (ns ++ [x])[i]?.bind MerkleNode.hash = some hh := by
  intro i hh hi
  have hiL : i < ns.length := by
    cases hn : ns[i]? with
    | none => rw [hn] at hi; cases hi
    | some n => exact (List.getElem?_eq_some.mp hn).1
  rw [get_append_lt ns x i hiL]
  exact hi

/-- An already-assigned node hash is never changed by a further `.next` step:
hashes are written at most once. -/
theorem hash_mono_next (vb : List Bool) (hs : List (List Nat)) (ht : Int)
    (st st' : MBState) (hwf : Wf hs st) (h : step vb hs ht st = .next st') :
    ∀ (i : Nat) (hh : List Nat), hashAt st i = some hh → hashAt st' i = some hh := by
  intro i hh hi
  by_cases hlen : st.hashesIndex = hs.length
  · rw [step, if_pos hlen] at h
    cases hc : st.current with
    | none => simp [hc] at h
    | some c =>
      simp only [hc] at h
      cases hcn : st.binTree[c]? with
      | none => simp [hcn] at h
      | some cn =>
        simp only [hcn] at h
        cases hl : cn.left with
        | none => simp [hl] at h
        | some l =>
          cases hr : cn.right with
          | none => simp [hl, hr] at h
          | some r =>
            simp only [hl, hr] at h
            cases hlh : hashAt st l with
            | none => simp [hlh] at h
            | some lh =>
              cases hrh : hashAt st r with
              | none => simp [hlh, hrh] at h
              | some rh => simp [hlh, hrh] at h
  · rw [step, if_neg hlen] at h
    cases hc : st.current with
    | none => simp [hc] at h
    | some c =>
      simp only [hc] at h
      cases hcn : st.binTree[c]? with
      | none => simp [hcn] at h
      | some cn =>
        simp only [hcn] at h
        have hchn : cn.hash = none := by
          have h0 := hwf.cur_hash_none c hc
          rwa [hashAt_of_get st c cn hcn] at h0
        cases hl : cn.left with
        | none =>
          simp only [hl] at h
          obtain ⟨b, hb, _, _, hcase⟩ := flagStep_next_inversion vb hs ht st c st' h
          rcases hcase with ⟨hsh, hhsh, hst'⟩ | hst'
          · subst hst'
            exact hash_mono_update st.binTree c _
              (fun n hn => by rw [hcn] at hn; injection hn with hn; rw [← hn]; exact hchn)
              i hh hi
          · subst hst'
            show ((updateNode st.binTree c _ ++ _)[i]?).bind MerkleNode.hash = some hh
            refine hash_mono_append _ _ i hh ?_
            exact hash_mono_update st.binTree c _
              (fun n hn => by rw [hcn] at hn; injection hn with hn; rw [← hn]; exact hchn)
              i hh hi
        | some l =>
          cases hr : cn.right with
          | none =>
            simp only [hl, hr] at h
            have hmid : hashAt (rightCreate st c) i = some hh := by
              show ((updateNode st.binTree c _ ++ _)[i]?).bind MerkleNode.hash = some hh
              refine hash_mono_append _ _ i hh ?_
              exact hash_mono_update st.binTree c _
                (fun n hn => by rw [hcn] at hn; injection hn with hn; rw [← hn]; exact hchn)
                i hh hi
            have hwfMid := wf_rightCreate hs st c l cn hwf hc hcn hl hr
            have hchnMid : (⟨some c, none, none, none⟩ : MerkleNode).hash = none := rfl
            obtain ⟨b, hb, _, _, hcase⟩ := flagStep_next_inversion vb hs ht
              (rightCreate st c) st.binTree.length st' h
            rcases hcase with ⟨hsh, hhsh, hst'⟩ | hst'
            · subst hst'
              refine hash_mono_update (rightCreate st c).binTree st.binTree.length _
                (fun n hn => by
                  rw [rightCreate_get_new st c] at hn
                  injection hn with hn
                  rw [← hn]) i hh hmid
            · subst hst'
              show ((updateNode (rightCreate st c).binTree st.binTree.length _ ++ _)[i]?).bind
                MerkleNode.hash = some hh
              refine hash_mono_append _ _ i hh ?_
              refine hash_mono_update (rightCreate st c).binTree st.binTree.length _
                (fun n hn => by
                  rw [rightCreate_get_new st c] at hn
                  injection hn with hn
                  rw [← hn]) i hh hmid
          | some r =>
            simp only [hl, hr] at h
            injection h with h
            subst h
            show ((if cn.hash = none then _ else st.binTree)[i]?).bind MerkleNode.hash
              = some hh
            rw [if_pos hchn]
            exact hash_mono_update st.binTree c _
              (fun n hn => by rw [hcn] at hn; injection hn with hn; rw [← hn]; exact hchn)
              i hh hi

/-- The success step writes only the current node's hash, which was unset. -/
theorem hash_mono_ok (vb : List Bool) (hs : List (List Nat)) (ht : Int)
    (st : MBState) (r : List Nat) (st' : MBState) (hwf : Wf hs st)
    (h : step vb hs ht st = .ok r st') :
    ∀ (i : Nat) (hh : List Nat), hashAt st i = some hh → hashAt st' i = some hh := by
  intro i hh hi
  obtain ⟨hlen, c, cn, l, rr, lh, rh, hc, hcn, hl, hr, hlh, hrh, hroot, hst'⟩ :=
    step_ok_inversion vb hs ht st r st' h
  have hchn : cn.hash = none := by
    have h0 := hwf.cur_hash_none c hc
    rwa [hashAt_of_get st c cn hcn] at h0
  subst hst'
  exact hash_mono_update st.binTree c _
    (fun n hn => by rw [hcn] at hn; injection hn with hn; rw [← hn]; exact hchn)
    i hh hi

/-- The consumed-bit index stays strictly below the flag-bit count at every
reachable loop-top state, except in the initial one-node state. -/
theorem vidx_stepsN (vb : List Bool) (hs : List (List Nat)) (ht : Int) :
    ∀ (n : Nat) (st st' : MBState),
      (st.vbitsIndex < vb.length ∨ (st.vbitsIndex = 0 ∧ st.binTree.length = 1)) →
      stepsN vb hs ht n st = some st' →
      (st'.vbitsIndex < vb.length ∨
        (st'.vbitsIndex = 0 ∧ st'.binTree.length = 1)) := by
  intro n
  induction n with
  | zero =>
    intro st st' hP h
    rw [stepsN] at h
    injection h with h
    rw [← h]
    exact hP
  | succ n ih =>
    intro st st' hP h
    rw [stepsN] at h
    cases hstep : step vb hs ht st with
    | next st1 =>
      simp only [hstep] at h
      refine ih st1 st' ?_ h
      -- one step: either a fold (indices and length unchanged) or a
      -- flag-consuming step whose guard was passed
      by_cases hlen : st.hashesIndex = hs.length
      · rw [step, if_pos hlen] at hstep
        cases hc : st.current with
        | none => simp [hc] at hstep
        | some c =>
          simp only [hc] at hstep
          cases hcn : st.binTree[c]? with
          | none => simp [hcn] at hstep
          | some cn =>
            simp only [hcn] at hstep
            cases hl : cn.left with
            | none => simp [hl] at hstep
            | some l =>
              cases hr : cn.right with
              | none => simp [hl, hr] at hstep
              | some r =>
                simp only [hl, hr] at hstep
                cases hlh : hashAt st l with
                | none => simp [hlh] at hstep
                | some lh =>
                  cases hrh : hashAt st r with
                  | none => simp [hlh, hrh] at hstep
                  | some rh => simp [hlh, hrh] at hstep
      · rw [step, if_neg hlen] at hstep
        cases hc : st.current with
        | none => simp [hc] at hstep
        | some c =>
          simp only [hc] at hstep
          cases hcn : st.binTree[c]? with
          | none => simp [hcn] at hstep
          | some cn =>
            simp only [hcn] at hstep
            cases hl : cn.left with
            | none =>
              simp only [hl] at hstep
              obtain ⟨b, hb, hguard, _, _⟩ :=
                flagStep_next_inversion vb hs ht st c st1 hstep
              exact Or.inl hguard
            | some l =>
              cases hr : cn.right with
              | none =>
                simp only [hl, hr] at hstep
                obtain ⟨b, hb, hguard, _, _⟩ := flagStep_next_inversion vb hs ht
                  (rightCreate st c) st.binTree.length st1 hstep
                exact Or.inl hguard
              | some r =>
                simp only [hl, hr] at hstep
                injection hstep with hstep
                subst hstep
                rcases hP with hP | hP
                · exact Or.inl hP
                · right
                  refine ⟨hP.1, ?_⟩
                  show (if cn.hash = none then _ else st.binTree).length = 1
                  split
                  · rw [updateNode_length]
                    exact hP.2
                  · exact hP.2
    | ok r st1 => simp [hstep] at h
    | fail e st1 => simp [hstep] at h
    | stuck p => simp [hstep] at h

theorem countLeaves_eq_length_leafHashes :
    ∀ (ns : List MerkleNode),
      (∀ (i : Nat) (n : MerkleNode), ns[i]? = some n → n.left = none →
        n.right = none → n.hash.isSome) →
      countLeaves ns = (leafHashes ns).length := by
  intro ns
  induction ns with
  | nil => intro _; rfl
  | cons x xs ih =>
    intro hall
    have htail : ∀ (i : Nat) (n : MerkleNode), xs[i]? = some n → n.left = none →
        n.right = none → n.hash.isSome := by
      intro i n hn hln hrn
      exact hall (i + 1) n (by rw [List.getElem?_cons_succ]; exact hn) hln hrn
    have hthis := ih htail
    unfold countLeaves leafHashes at hthis ⊢
    rw [List.filter_cons, List.filterMap_cons]
    by_cases hx : (x.left.isNone && x.right.isNone) = true
    · have hln : x.left = none := by
        cases hL : x.left with
        | none => rfl
        | some _ => rw [hL] at hx; simp at hx
      have hrn : x.right = none := by
        cases hR : x.right with
        | none => rfl
        | some _ => rw [hR] at hx; simp at hx
      obtain ⟨v, hv⟩ := Option.isSome_iff_exists.mp (hall 0 x (by simp) hln hrn)
      have hentry : leafEntry x = some v := by
        unfold leafEntry
        rw [if_pos hx]
        exact hv
      simp only [hentry, if_pos hx, List.length_cons, hthis]
    · have hentry : leafEntry x = none := by
        unfold leafEntry
        rw [if_neg hx]
      simp only [hentry, if_neg hx]
      exact hthis

/-- C3: at every reachable loop-top state of the walk and in the final state of
a successful run, every node holding a hash with two children holds exactly
`doubleSHA256(leftChild.hash ++ rightChild.hash)` (and both children's hashes
are set); the hashes of the childless (leaf) nodes, in creation order — which
is their finalization order — are byte for byte the consumed prefix of the
input hash list; and a hash, once set, is never modified by any further step,
so each node's hash is set at most once. -/
theorem c3_hash_invariants :
    ∀ (vb : List Bool) (hs : List (List Nat)) (ht : Int) (n : Nat) (st' : MBState),
      stepsN vb hs ht n initState = some st' →
      ((∀ (i : Nat) (nd : MerkleNode) (l r : Nat) (h : List Nat),
          st'.binTree[i]? = some nd → nd.left = some l → nd.right = some r →
          nd.hash = some h →
          ∃ lh rh, hashAt st' l = some lh ∧ hashAt st' r = some rh ∧
            h = doubleSha256 (lh ++ rh)) ∧
        leafHashes st'.binTree = hs.take st'.hashesIndex ∧
        (∀ (st'' : MBState) (i : Nat) (hh : List Nat),
          step vb hs ht st' = .next st'' → hashAt st' i = some hh →
          hashAt st'' i = some hh) ∧
        (∀ (r0 : List Nat) (st'' : MBState) (i : Nat) (hh : List Nat),
          step vb hs ht st' = .ok r0 st'' → hashAt st' i = some hh →
          hashAt st'' i = some hh) ∧
        (∀ (r0 : List Nat) (st'' : MBState), step vb hs ht st' = .ok r0 st'' →
          (∀ (i : Nat) (nd : MerkleNode) (l r : Nat) (h : List Nat),
            st''.binTree[i]? = some nd → nd.left = some l → nd.right = some r →
            nd.hash = some h →
            ∃ lh rh, hashAt st'' l = some lh ∧ hashAt st'' r = some rh ∧
              h = doubleSha256 (lh ++ rh)) ∧
          leafHashes st''.binTree = hs.take st''.hashesIndex)) := by
  intro vb hs ht n st' hsteps
  have hwf : Wf hs st' := wf_stepsN vb hs ht n initState st' (wf_init hs) hsteps
  refine ⟨hwf.internal_eq, hwf.leaves_pref, ?_, ?_, ?_⟩
  · intro st'' i hh hstep hhash
    exact hash_mono_next vb hs ht st' st'' hwf hstep i hh hhash
  · intro r0 st'' i hh hstep hhash
    exact hash_mono_ok vb hs ht st' r0 st'' hwf hstep i hh hhash
  · intro r0 st'' hstep
    obtain ⟨hlen, c, cn, l, rr, lh, rh, hc, hcn, hl, hr, hlh, hrh, hroot, hst''⟩ :=
      step_ok_inversion vb hs ht st' r0 st'' hstep
    have hmono := hash_mono_ok vb hs ht st' r0 st'' hwf hstep
    subst hst''
    have hget_self : (setHashAt st' c r0).binTree[c]? =
        some { cn with hash := some r0 } := by
      show (updateNode st'.binTree c _)[c]? = _
      exact updateNode_get_self st'.binTree c _ cn hcn
    have hget_ne : ∀ j, j ≠ c →
        (setHashAt st' c r0).binTree[j]? = st'.binTree[j]? := by
      intro j hj
      exact updateNode_get_ne st'.binTree c _ j (fun he => hj he.symm)
    constructor
    · intro i nd l' r' h' hn hl' hr' hh'
      by_cases hic : i = c
      · subst hic
        rw [hget_self] at hn
        injection hn with hn
        subst hn
        have hl'2 : cn.left = some l' := hl'
        have hr'2 : cn.right = some r' := hr'
        have hh'2 : (some r0 : Option (List Nat)) = some h' := hh'
        rw [hl] at hl'2
        rw [hr] at hr'2
        injection hl'2 with hl'2
        injection hr'2 with hr'2
        injection hh'2 with hh'2
        subst hl'2
        subst hr'2
        refine ⟨lh, rh, hmono l lh hlh, hmono rr rh hrh, ?_⟩
        rw [← hh'2, hroot]
      · rw [hget_ne i hic] at hn
        obtain ⟨lh', rh', hlh', hrh', heq⟩ :=
          hwf.internal_eq i nd l' r' h' hn hl' hr' hh'
        exact ⟨lh', rh', hmono l' lh' hlh', hmono r' rh' hrh', heq⟩
    · show leafHashes (updateNode st'.binTree c _) = hs.take st'.hashesIndex
      have h2 : leafHashes (updateNode st'.binTree c
          (fun n' => { n' with hash := some r0 })) = leafHashes st'.binTree := by
        unfold leafHashes updateNode
        simp only [hcn]
        refine filterMap_set_congr leafEntry st'.binTree c cn _ hcn ?_
        simp [leafEntry, hl]
      rw [h2]
      exact hwf.leaves_pref

/-- C3 witness: the invariants instantiated at the initial state of a
concrete one-bit, one-hash run. -/
theorem c3_hash_invariants_witness :
    (∀ (i : Nat) (nd : MerkleNode) (l r : Nat) (h : List Nat),
        initState.binTree[i]? = some nd → nd.left = some l → nd.right = some r →
        nd.hash = some h →
        ∃ lh rh, hashAt initState l = some lh ∧ hashAt initState r = some rh ∧
          h = doubleSha256 (lh ++ rh)) ∧
      leafHashes initState.binTree = [[5]].take initState.hashesIndex ∧
      (∀ (st'' : MBState) (i : Nat) (hh : List Nat),
        step [true] [[5]] 0 initState = .next st'' → hashAt initState i = some hh →
        hashAt st'' i = some hh) ∧
      (∀ (r0 : List Nat) (st'' : MBState) (i : Nat) (hh : List Nat),
        step [true] [[5]] 0 initState = .ok r0 st'' → hashAt initState i = some hh →
        hashAt st'' i = some hh) ∧
      (∀ (r0 : List Nat) (st'' : MBState), step [true] [[5]] 0 initState = .ok r0 st'' →
        (∀ (i : Nat) (nd : MerkleNode) (l r : Nat) (h : List Nat),
          st''.binTree[i]? = some nd → nd.left = some l → nd.right = some r →
          nd.hash = some h →
          ∃ lh rh, hashAt st'' l = some lh ∧ hashAt st'' r = some rh ∧
            h = doubleSha256 (lh ++ rh)) ∧
        leafHashes st''.binTree = [[5]].take st''.hashesIndex) :=
  c3_hash_invariants [true] [[5]] 0 0 initState rfl

/-- C4 (amended): for every run on which reconstruction succeeds, the number of
consumed hashes equals the number of leaves (childless nodes) created and the
number of consumed flag bits equals the total number of nodes created; any
remaining unconsumed flag bits are ignored without error, and at least one
flag bit is always left unconsumed — a walk needing exactly all `8·F` flag
bits fails with `FlagStreamExhausted` instead (see the counterexample). -/
theorem c4_amended_counts :
    ∀ (vb : List Bool) (hs : List (List Nat)) (ht : Int) (fuel : Nat)
      (r : List Nat) (st' : MBState),
      createMerkleBranch vb hs ht fuel = .ok r st' →
      st'.hashesIndex = hs.length ∧
      countLeaves st'.binTree = st'.hashesIndex ∧
      st'.vbitsIndex = st'.binTree.length ∧
      st'.vbitsIndex < vb.length := by
  intro vb hs ht fuel r st' h
  obtain ⟨n, st0, hsteps, hstep⟩ :=
    runLoop_ok_inversion vb hs ht fuel initState r st' h
  have hwf : Wf hs st0 := wf_stepsN vb hs ht n initState st0 (wf_init hs) hsteps
  obtain ⟨hlen, c, cn, l, rr, lh, rh, hc, hcn, hl, hr, hlh, hrh, hroot, hst'⟩ :=
    step_ok_inversion vb hs ht st0 r st' hstep
  have hP := vidx_stepsN vb hs ht n initState st0 (Or.inr ⟨rfl, rfl⟩) hsteps
  have hvidx_lt : st0.vbitsIndex < vb.length := by
    rcases hP with hP | hP
    · exact hP
    · have hbound := hwf.left_range c cn l hcn hl
      rw [hP.2] at hbound
      omega
  have hfresh : isFresh st0 = false := by
    unfold isFresh
    simp only [hc, hcn, hl]
    rfl
  have hcount := hwf.count_eq
  rw [hfresh, if_neg (by simp)] at hcount
  subst hst'
  have hget_self : (setHashAt st0 c r).binTree[c]? =
      some { cn with hash := some r } := by
    show (updateNode st0.binTree c _)[c]? = _
    exact updateNode_get_self st0.binTree c _ cn hcn
  have hget_ne : ∀ j, j ≠ c →
      (setHashAt st0 c r).binTree[j]? = st0.binTree[j]? := by
    intro j hj
    exact updateNode_get_ne st0.binTree c _ j (fun he => hj he.symm)
  have hlen' : (setHashAt st0 c r).binTree.length = st0.binTree.length := by
    show (updateNode st0.binTree c _).length = _
    rw [updateNode_length]
  have hall : ∀ (i : Nat) (nd : MerkleNode),
      (setHashAt st0 c r).binTree[i]? = some nd → nd.left = none →
      nd.right = none → nd.hash.isSome := by
    intro i nd hn hln hrn
    by_cases hic : i = c
    · subst hic
      rw [hget_self] at hn
      injection hn with hn
      subst hn
      have hln2 : cn.left = none := hln
      rw [hl] at hln2
      cases hln2
    · rw [hget_ne i hic] at hn
      cases hh : nd.hash with
      | some v => rfl
      | none =>
        obtain ⟨hcur, _⟩ := hwf.fresh_last i nd hn hln hrn hh
        rw [hc] at hcur
        injection hcur with he
        exact absurd he.symm hic
  have hleaves : leafHashes (setHashAt st0 c r).binTree = hs := by
    show leafHashes (updateNode st0.binTree c _) = hs
    have h2 : leafHashes (updateNode st0.binTree c
        (fun n' => { n' with hash := some r })) = leafHashes st0.binTree := by
      unfold leafHashes updateNode
      simp only [hcn]
      refine filterMap_set_congr leafEntry st0.binTree c cn _ hcn ?_
      simp [leafEntry, hl]
    rw [h2, hwf.leaves_pref, hlen]
    exact List.take_length hs
  refine ⟨hlen, ?_, ?_, hvidx_lt⟩
  · rw [countLeaves_eq_length_leafHashes (setHashAt st0 c r).binTree hall, hleaves]
    show hs.length = st0.hashesIndex
    omega
  · show st0.vbitsIndex = (setHashAt st0 c r).binTree.length
    rw [hlen']
    omega

/-- C4 amended witness: the counts hold on a concrete successful two-leaf run. -/
theorem c4_amended_counts_witness :
    ∃ r st', createMerkleBranch (unpackVBits [1]) [[1], [2]] 1 100 = .ok r st' ∧
      st'.hashesIndex = [[1], [2]].length ∧
      countLeaves st'.binTree = st'.hashesIndex ∧
      st'.vbitsIndex = st'.binTree.length ∧
      st'.vbitsIndex < (unpackVBits [1]).length := by
  obtain ⟨r, st', hrun⟩ :
      ∃ r st', createMerkleBranch (unpackVBits [1]) [[1], [2]] 1 100 = .ok r st' :=
    ⟨_, _, rfl⟩
  exact ⟨r, st', hrun, c4_amended_counts (unpackVBits [1]) [[1], [2]] 1 100 r st' hrun⟩

end TxOutProof

